import Mathlib

/-!
# Duplicate-file detection (`pkg/filegorithms/check_duplicate_files.go`)

A shallow embedding of `CheckDuplicateFiles`, `worker` and `calculateMD5`.

* Channels are embedded twice: as streams (a goroutine is a function from the
  sequence it receives to the sequence it sends) and as rendezvous steps of a
  transition system over the goroutines of `CheckDuplicateFiles`.
* `map[string][]string` is an association list with pairwise distinct keys; a
  `range` over the map visits the entries in an arbitrary permutation.
* `crypto/md5` is the RFC 1321 digest on 32-bit words held in `Nat`.
-/

namespace Filegorithms

/-! ## Data model -/

/-- The record `fileInfo` a worker sends on `resultsChan`. -/
structure fileInfo where
  path : String
  hash : String
deriving DecidableEq, Repr

/-- One byte of file content. -/
abbrev Byte := Fin 256

/-- What `os.Open` followed by `io.Copy` observes for one path. -/
inductive FileEntry where
  | openError (err : String)
  | readError (err : String)
  | readable (content : List Byte)
deriving DecidableEq, Repr

/-- The file system as seen by `calculateMD5`. -/
abbrev FileSystem := String → FileEntry

/-- Lines sent to the standard logger (the text layout is not modelled). -/
inductive LogEntry where
  | walkError (err : String)
  | hashError (file : String) (err : String)
  | duplicateFilesFound (hash : String)
  | line (path : String)
  | blank
  | duplicatesFound (count : Nat)
  | fatal (err : String)
deriving DecidableEq, Repr

/-! ## `crypto/md5` (RFC 1321) and `fmt.Sprintf("%x", _)` -/

/-- Truncation to a 32-bit word. -/
def w32 (x : Nat) : Nat := x % 2 ^ 32

/-- Left rotation of a 32-bit word. -/
def rotl32 (x c : Nat) : Nat := w32 ((x <<< c) ||| (x >>> (32 - c)))

/-- Bitwise complement of a 32-bit word. -/
def not32 (x : Nat) : Nat := x ^^^ 0xffffffff

/-- Per-round shift amounts. -/
def md5S : List Nat :=
  [7, 12, 17, 22, 7, 12, 17, 22, 7, 12, 17, 22, 7, 12, 17, 22,
   5, 9, 14, 20, 5, 9, 14, 20, 5, 9, 14, 20, 5, 9, 14, 20,
   4, 11, 16, 23, 4, 11, 16, 23, 4, 11, 16, 23, 4, 11, 16, 23,
   6, 10, 15, 21, 6, 10, 15, 21, 6, 10, 15, 21, 6, 10, 15, 21]

/-- Per-round additive constants. -/
def md5K : List Nat := [
  0xd76aa478, 0xe8c7b756, 0x242070db, 0xc1bdceee,
  0xf57c0faf, 0x4787c62a, 0xa8304613, 0xfd469501,
  0x698098d8, 0x8b44f7af, 0xffff5bb1, 0x895cd7be,
  0x6b901122, 0xfd987193, 0xa679438e, 0x49b40821,
  0xf61e2562, 0xc040b340, 0x265e5a51, 0xe9b6c7aa,
  0xd62f105d, 0x02441453, 0xd8a1e681, 0xe7d3fbc8,
  0x21e1cde6, 0xc33707d6, 0xf4d50d87, 0x455a14ed,
  0xa9e3e905, 0xfcefa3f8, 0x676f02d9, 0x8d2a4c8a,
  0xfffa3942, 0x8771f681, 0x6d9d6122, 0xfde5380c,
  0xa4beea44, 0x4bdecfa9, 0xf6bb4b60, 0xbebfbc70,
  0x289b7ec6, 0xeaa127fa, 0xd4ef3085, 0x04881d05,
  0xd9d4d039, 0xe6db99e5, 0x1fa27cf8, 0xc4ac5665,
  0xf4292244, 0x432aff97, 0xab9423a7, 0xfc93a039,
  0x655b59c3, 0x8f0ccc92, 0xffeff47d, 0x85845dd1,
  0x6fa87e4f, 0xfe2ce6e0, 0xa3014314, 0x4e0811a1,
  0xf7537e82, 0xbd3af235, 0x2ad7d2bb, 0xeb86d391]

/-- The four chaining words of the digest. -/
structure Md5State where
  a : Nat
  b : Nat
  c : Nat
  d : Nat
deriving DecidableEq, Repr

/-- Initial chaining value. -/
def md5Init : Md5State := ⟨0x67452301, 0xefcdab89, 0x98badcfe, 0x10325476⟩

/-- Round function and message-word index of operation `i`. -/
def md5Mix (i b c d : Nat) : Nat × Nat :=
  if i < 16 then ((b &&& c) ||| (not32 b &&& d), i)
  else if i < 32 then ((d &&& b) ||| (not32 d &&& c), (5 * i + 1) % 16)
  else if i < 48 then (b ^^^ c ^^^ d, (3 * i + 5) % 16)
  else (c ^^^ (b ||| not32 d), (7 * i) % 16)

/-- Operation `i` of the compression function on message words `m`. -/
def md5Round (m : List Nat) (st : Md5State) (i : Nat) : Md5State :=
  let (f, g) := md5Mix i st.b st.c st.d
  let f := w32 (f + st.a + md5K.getD i 0 + m.getD g 0)
  ⟨st.d, w32 (st.b + rotl32 f (md5S.getD i 0)), st.b, st.c⟩

/-- Little-endian value of a byte string. -/
def leWord (bs : List Nat) : Nat :=
  bs.foldr (fun b acc => b + 256 * acc) 0

/-- The first `k` consecutive chunks of length `n`. -/
def chunksOf (n : Nat) : Nat → List Nat → List (List Nat)
  | 0, _ => []
  | k + 1, bs => bs.take n :: chunksOf n k (bs.drop n)

/-- Compression of one 64-byte block. -/
def md5Block (st : Md5State) (block : List Nat) : Md5State :=
  let m := (chunksOf 4 16 block).map leWord
  let r := (List.range 64).foldl (md5Round m) st
  ⟨w32 (st.a + r.a), w32 (st.b + r.b), w32 (st.c + r.c), w32 (st.d + r.d)⟩

/-- The `k` low bytes of `x`, least significant first. -/
def leBytes : Nat → Nat → List Nat
  | 0, _ => []
  | k + 1, x => x % 256 :: leBytes k (x / 256)

/-- Padding: a `0x80` byte, zeros up to 56 mod 64, then the bit length. -/
def md5Pad (msg : List Nat) : List Nat :=
  let n := msg.length
  let zeros := (55 + 64 - n % 64) % 64
  msg ++ 0x80 :: List.replicate zeros 0 ++ leBytes 8 ((8 * n) % 2 ^ 64)

/-- The 16 digest bytes: `hash.Sum(nil)` after the whole content was copied
into `md5.New()`. -/
def md5Sum (msg : List Byte) : List Nat :=
  let p := md5Pad (msg.map Fin.val)
  let st := (chunksOf 64 (p.length / 64) p).foldl md5Block md5Init
  leBytes 4 st.a ++ leBytes 4 st.b ++ leBytes 4 st.c ++ leBytes 4 st.d

/-- One lower-case hexadecimal digit. -/
def hexDigit (n : Nat) : Char :=
  "0123456789abcdef".toList.getD n '0'

/-- Rendering of a byte slice by `fmt.Sprintf("%x", _)`: two digits per byte. -/
def sprintfHex (bs : List Nat) : String :=
  String.mk (bs.flatMap fun b => [hexDigit (b / 16), hexDigit (b % 16)])

/-! ## `calculateMD5` and `worker` -/

/-- Equality of the results of `calculateMD5` is decidable. -/
instance decEqResult : DecidableEq (Except String String)
  | .ok a, .ok b =>
    if h : a = b then isTrue (by rw [h]) else isFalse (fun h2 => h (Except.ok.inj h2))
  | .error a, .error b =>
    if h : a = b then isTrue (by rw [h]) else isFalse (fun h2 => h (Except.error.inj h2))
  | .ok _, .error _ => isFalse (fun h => by cases h)
  | .error _, .ok _ => isFalse (fun h => by cases h)

/-- The function `calculateMD5`: open, stream through MD5, render in hex. -/
def calculateMD5 (fs : FileSystem) (filePath : String) : Except String String :=
  match fs filePath with
  | .openError err => .error err
  | .readError err => .error err
  | .readable content => .ok (sprintfHex (md5Sum content))

/-- Body of the loop of `worker` for one received path: the record sent on
`results` (if any) and the lines logged. -/
def workerStep (fs : FileSystem) (file : String) : Option fileInfo × List LogEntry :=
  match calculateMD5 fs file with
  | .error err => (none, [LogEntry.hashError file err])
  | .ok hash => (some ⟨file, hash⟩, [])

/-- The function `worker` as a stream transformer: the records it sends on
`results`, in order, for the paths it receives from `files` until that channel
is closed. -/
def worker (fs : FileSystem) : List String → List fileInfo
  | [] => []
  | file :: rest =>
    match (workerStep fs file).1 with
    | none => worker fs rest
    | some r => r :: worker fs rest

/-- Lines logged by `worker` while it processes the received paths. -/
def workerLog (fs : FileSystem) (files : List String) : List LogEntry :=
  files.flatMap fun file => (workerStep fs file).2

/-! ## The directory walk -/

/-- One invocation of the callback by `filepath.Walk`: the entry's path,
`info.IsDir()`, and the error `filepath.Walk` reports for it (if any). -/
structure WalkEntry where
  path : String
  isDir : Bool
  err : Option String
deriving DecidableEq, Repr

/-- The walking goroutine over the traversal sequence of `filepath.Walk`: the
paths sent on `filesChan`, and the error `filepath.Walk` returns. The callback
returns a non-nil error exactly when it is handed one, which ends the walk. -/
def walker : List WalkEntry → List String × Option String
  | [] => ([], none)
  | e :: rest =>
    match e.err with
    | some err => ([], some err)
    | none =>
      if !e.isDir then (e.path :: (walker rest).1, (walker rest).2)
      else walker rest

/-! ## Aggregation: `fileHashes` -/

/-- The map `fileHashes : map[string][]string`. -/
abbrev HashMap := List (String × List String)

/-- Map read `m[k]`; an absent key reads as the nil slice. -/
def HashMap.get : HashMap → String → List String
  | [], _ => []
  | (k', v) :: rest, k => if k' = k then v else HashMap.get rest k

/-- Map write `m[k] = v`. -/
def HashMap.set : HashMap → String → List String → HashMap
  | [], k, v => [(k, v)]
  | (k', v') :: rest, k, v =>
    if k' = k then (k, v) :: rest else (k', v') :: HashMap.set rest k v

/-- The keys of the map. -/
def HashMap.keys (m : HashMap) : List String := m.map Prod.fst

/-- Body of the collecting loop:
`fileHashes[result.hash] = append(fileHashes[result.hash], result.path)`. -/
def collect (m : HashMap) (result : fileInfo) : HashMap :=
  m.set result.hash (m.get result.hash ++ [result.path])

/-- The collecting loop over the records received from `resultsChan`. -/
def collectResults (results : List fileInfo) : HashMap :=
  results.foldl collect []

/-! ## The report -/

/-- The `bufio.Writer` on the output file opened with `O_APPEND`: `file` is the
content of the file, `buf` the bytes not yet flushed. -/
structure Writer where
  file : String
  buf : String
deriving DecidableEq, Repr

/-- Buffered write `writer.WriteString(s)`. -/
def Writer.WriteString (w : Writer) (s : String) : Writer :=
  { w with buf := w.buf ++ s }

/-- Flush `writer.Flush()`: the buffered bytes are appended to the file. -/
def Writer.Flush (w : Writer) : Writer :=
  { file := w.file ++ w.buf, buf := "" }

/-- State of the main goroutine during the report loop. -/
structure ReportState where
  writer : Writer
  log : List LogEntry
  duplicateCount : Nat
deriving DecidableEq, Repr

/-- Inner loop of the report: one path of a group. -/
def writePath (st : ReportState) (path : String) : ReportState :=
  { st with log := st.log ++ [LogEntry.line path],
            writer := st.writer.WriteString (path ++ "\n") }

/-- Body of the report loop for one map entry. -/
def writeGroup (st : ReportState) (entry : String × List String) : ReportState :=
  if entry.2.length > 1 then
    let st1 : ReportState :=
      { st with log := st.log ++ [LogEntry.duplicateFilesFound entry.1],
                duplicateCount := st.duplicateCount + 1 }
    let st2 := entry.2.foldl writePath st1
    { st2 with log := st2.log ++ [LogEntry.blank],
               writer := st2.writer.WriteString "\n" }
  else st

/-- The report loop `for hash, paths := range fileHashes`, visiting the
entries in the order `order`. -/
def writeResults (order : List (String × List String)) (st : ReportState) : ReportState :=
  order.foldl writeGroup st

/-- Result of opening the output file with `O_APPEND|O_WRONLY|O_CREATE`. -/
inductive OutputFile where
  | unopenable (err : String)
  | absent
  | existing (content : String)
deriving DecidableEq, Repr

/-- The function `os.OpenFile` on the output path: an error, or the content the
appended bytes will follow (empty for a file just created). -/
def openFile : OutputFile → Except String String
  | .unopenable err => .error err
  | .absent => .ok ""
  | .existing content => .ok content

/-- What the main goroutine leaves behind when it returns. -/
structure Outcome where
  file : String
  log : List LogEntry
  duplicateCount : Nat
deriving DecidableEq, Repr

/-- The main goroutine from `bufio.NewWriter(f)` to its return, for the
aggregate visited in the order `order`, on an output file whose content is
`content`. -/
def report (content : String) (order : List (String × List String)) : Outcome :=
  let st := writeResults order ⟨⟨content, ""⟩, [], 0⟩
  let w := st.writer.Flush
  { file := w.file,
    log := st.log ++ [LogEntry.duplicatesFound st.duplicateCount],
    duplicateCount := st.duplicateCount }

/-! ## Specification-side definitions -/

/-- The duplicate groups of an aggregate: the entries with more than one path. -/
def duplicateGroups (m : List (String × List String)) : List (String × List String) :=
  m.filter fun e => 1 < e.2.length

/-- Text of one group: each path on a line of its own, then one empty line. -/
def renderGroup (paths : List String) : String :=
  paths.foldr (fun p acc => p ++ "\n" ++ acc) "\n"

/-- Text of a sequence of groups, concatenated with no other delimiter. -/
def renderGroups (groups : List (List String)) : String :=
  groups.foldr (fun g acc => renderGroup g ++ acc) ""

/-- Bytes one entry of the aggregate adds to the output: its rendered group
when it has more than one path, nothing otherwise. -/
def groupContribution (e : String × List String) : String :=
  if 1 < e.2.length then renderGroup e.2 else ""

/-- Lines logged for one duplicate group. -/
def groupLog (e : String × List String) : List LogEntry :=
  LogEntry.duplicateFilesFound e.1 :: (e.2.map LogEntry.line ++ [LogEntry.blank])

/-- The paths of the records of a result stream that carry digest `d`, in
arrival order. -/
def pathsWithDigest (results : List fileInfo) (d : String) : List String :=
  (results.filter fun r => r.hash = d).map fileInfo.path

/-- The duplicate groups of an aggregate, each taken as a set of paths. -/
def groupSets (m : List (String × List String)) : Finset (Finset String) :=
  ((duplicateGroups m).map fun e => e.2.toFinset).toFinset

/-- An aggregate with the member order of each group forgotten. -/
def unorderedGroups (m : List (String × List String)) : List (String × Multiset String) :=
  m.map fun e => (e.1, (e.2 : Multiset String))

/-- Content `hello`. -/
def helloBytes : List Byte := [0x68, 0x65, 0x6c, 0x6c, 0x6f]

/-- Content `world`. -/
def worldBytes : List Byte := [0x77, 0x6f, 0x72, 0x6c, 0x64]

/-- The tree of the concrete scenario: `a.txt` and `b.txt` hold `hello`,
`c.txt` holds `world`. -/
def scenarioFS : FileSystem := fun p =>
  if p = "root/a.txt" then .readable helloBytes
  else if p = "root/b.txt" then .readable helloBytes
  else if p = "root/c.txt" then .readable worldBytes
  else .openError "is a directory"

/-- Traversal of the scenario tree by `filepath.Walk`. -/
def scenarioWalk : List WalkEntry :=
  [⟨"root", true, none⟩, ⟨"root/a.txt", false, none⟩, ⟨"root/b.txt", false, none⟩,
   ⟨"root/c.txt", false, none⟩]

/-- Traversal of an empty tree: the root directory alone. -/
def emptyWalk : List WalkEntry := [⟨"root", true, none⟩]

/-! ## The goroutines of `CheckDuplicateFiles` as a transition system

Both channels are unbuffered: a send and a receive happen together, as one
step of the two goroutines involved. -/

/-- Where the main goroutine stands. -/
inductive MainPc where
  | opening
  | spawningWorkers (i : Nat)
  | spawningWalker
  | spawningCloser
  | collecting
  | returned
  | fatal (err : String)
deriving DecidableEq, Repr

/-- Where a worker goroutine stands: blocked at `range files`, about to call
`calculateMD5`, blocked at `results <- fileInfo`, or returned (after
`wg.Done()`). -/
inductive WorkerPc where
  | receiving
  | hashing (file : String)
  | sending (r : fileInfo)
  | returned
deriving DecidableEq, Repr

/-- Where the walking goroutine stands: `filepath.Walk` about to visit the next
entry, the callback blocked at `filesChan <- path`, `filepath.Walk` returned,
or the goroutine returned (after `close(filesChan)`). -/
inductive WalkerPc where
  | walking (rest : List WalkEntry)
  | sending (path : String) (rest : List WalkEntry)
  | walkReturned (err : Option String)
  | returned
deriving DecidableEq, Repr

/-- Where the closing goroutine stands: in `wg.Wait()`, about to
`close(resultsChan)`, or returned. -/
inductive CloserPc where
  | waiting
  | closing
  | returned
deriving DecidableEq, Repr

/-- What the environment answers to one call of `CheckDuplicateFiles`. -/
structure Config where
  fs : FileSystem
  walk : List WalkEntry
  numWorkers : Nat
  output : OutputFile

/-- State of one call of `CheckDuplicateFiles`. The fields `received` and
`sent` record the traffic on the two channels and are read by no step. -/
structure State where
  main : MainPc
  workers : List WorkerPc
  walker : Option WalkerPc
  closer : Option CloserPc
  wg : Nat
  filesClosed : Bool
  resultsClosed : Bool
  fileHashes : HashMap
  duplicateCount : Nat
  file : String
  log : List LogEntry
  panicked : Bool
  received : List fileInfo
  sent : List String
deriving DecidableEq, Repr

/-- State at the call. -/
def State.init : State :=
  { main := .opening, workers := [], walker := none, closer := none, wg := 0,
    filesClosed := false, resultsClosed := false, fileHashes := [],
    duplicateCount := 0, file := "", log := [], panicked := false,
    received := [], sent := [] }

/-- The scheduler's choice of the next step. -/
inductive Action where
  | main
  | mainReceive (i : Nat)
  | mainFinish (order : HashMap)
  | workerReceive (i : Nat)
  | worker (i : Nat)
  | walker
  | closer
deriving DecidableEq, Repr

/-- Steps of the main goroutine that involve no channel: opening the output
file and starting the goroutines. -/
def stepMain (cfg : Config) (s : State) : Option State :=
  match s.main with
  | .opening =>
    match openFile cfg.output with
    | .error err => some { s with main := .fatal err, log := s.log ++ [LogEntry.fatal err] }
    | .ok content => some { s with main := .spawningWorkers 0, file := content }
  | .spawningWorkers i =>
    if i < cfg.numWorkers then
      some { s with wg := s.wg + 1, workers := s.workers ++ [WorkerPc.receiving],
                    main := .spawningWorkers (i + 1) }
    else some { s with main := .spawningWalker }
  | .spawningWalker =>
    some { s with walker := some (.walking cfg.walk), main := .spawningCloser }
  | .spawningCloser =>
    some { s with closer := some .waiting, main := .collecting }
  | _ => none

/-- Worker `i` hands a record to the collecting loop of the main goroutine. -/
def stepMainReceive (s : State) (i : Nat) : Option State :=
  match s.main, s.workers[i]? with
  | .collecting, some (.sending r) =>
    if s.resultsClosed then none
    else some { s with workers := s.workers.set i .receiving,
                       fileHashes := collect s.fileHashes r,
                       received := s.received ++ [r] }
  | _, _ => none

/-- The collecting loop ends on the closed `resultsChan`; the main goroutine
writes the report, visiting the map in the order `order`, and returns. -/
def stepMainFinish (s : State) (order : HashMap) : Option State :=
  if s.main = .collecting ∧ s.resultsClosed = true ∧ order.Perm s.fileHashes then
    let o := report s.file order
    some { s with main := .returned, file := o.file, log := s.log ++ o.log,
                  duplicateCount := o.duplicateCount }
  else none

/-- The walker hands a path to worker `i`. -/
def stepWorkerReceive (s : State) (i : Nat) : Option State :=
  match s.walker, s.workers[i]? with
  | some (.sending p rest), some .receiving =>
    some { s with walker := some (.walking rest),
                  workers := s.workers.set i (.hashing p),
                  sent := s.sent ++ [p] }
  | _, _ => none

/-- Steps of worker `i` on its own: hashing the path it holds, leaving the
loop on the closed `filesChan` (then `wg.Done()`), or the run-time panics of a
send on a closed channel and of a negative `WaitGroup` counter. -/
def stepWorker (cfg : Config) (s : State) (i : Nat) : Option State :=
  match s.workers[i]? with
  | some (.hashing file) =>
    match workerStep cfg.fs file with
    | (none, lg) => some { s with workers := s.workers.set i .receiving, log := s.log ++ lg }
    | (some r, lg) => some { s with workers := s.workers.set i (.sending r), log := s.log ++ lg }
  | some .receiving =>
    if s.filesClosed then
      if s.wg = 0 then some { s with panicked := true }
      else some { s with workers := s.workers.set i .returned, wg := s.wg - 1 }
    else none
  | some (.sending _) =>
    if s.resultsClosed then some { s with panicked := true } else none
  | _ => none

/-- Steps of the walking goroutine on its own: one callback of
`filepath.Walk` up to its send, the return of `filepath.Walk`, and the logging
of its error followed by `close(filesChan)`. -/
def stepWalker (s : State) : Option State :=
  match s.walker with
  | some (.walking []) => some { s with walker := some (.walkReturned none) }
  | some (.walking (e :: rest)) =>
    match e.err with
    | some err => some { s with walker := some (.walkReturned (some err)) }
    | none =>
      if !e.isDir then some { s with walker := some (.sending e.path rest) }
      else some { s with walker := some (.walking rest) }
  | some (.walkReturned err) =>
    some { s with walker := some .returned, filesClosed := true,
                  log := s.log ++ (match err with
                    | some e => [LogEntry.walkError e]
                    | none => []) }
  | _ => none

/-- Steps of the closing goroutine: `wg.Wait()` returns once the counter is
zero, then `close(resultsChan)`. -/
def stepCloser (s : State) : Option State :=
  match s.closer with
  | some .waiting => if s.wg = 0 then some { s with closer := some .closing } else none
  | some .closing => some { s with closer := some .returned, resultsClosed := true }
  | _ => none

/-- The step the scheduler chose; `none` when the chosen goroutine cannot
move. -/
def stepAction (cfg : Config) (s : State) : Action → Option State
  | .main => stepMain cfg s
  | .mainReceive i => stepMainReceive s i
  | .mainFinish order => stepMainFinish s order
  | .workerReceive i => stepWorkerReceive s i
  | .worker i => stepWorker cfg s i
  | .walker => stepWalker s
  | .closer => stepCloser s

/-- One step of the program: a panic ends the process, otherwise the chosen
goroutine moves. -/
def step (cfg : Config) (s : State) (a : Action) : Option State :=
  if s.panicked then none else stepAction cfg s a

/-- Execution of a schedule from a state. -/
def run (cfg : Config) (s : State) : List Action → Option State
  | [] => some s
  | a :: rest =>
    match step cfg s a with
    | none => none
    | some s1 => run cfg s1 rest

/-- The function `CheckDuplicateFiles` under a schedule: the state the call
reaches, `none` when the schedule asks for a step that cannot be taken. -/
def CheckDuplicateFiles (cfg : Config) (schedule : List Action) : Option State :=
  run cfg State.init schedule

/-- The states a call of `CheckDuplicateFiles` can reach. -/
def Reachable (cfg : Config) (s : State) : Prop :=
  ∃ schedule, CheckDuplicateFiles cfg schedule = some s

/-- The call is over: the main goroutine returned or the process exited. -/
def State.finished (s : State) : Bool :=
  match s.main with
  | .returned => true
  | .fatal _ => true
  | _ => false

/-- Records a worker still has to deliver for the path it holds. -/
def pendingWorker (fs : FileSystem) : WorkerPc → List fileInfo
  | .receiving => []
  | .hashing file => worker fs [file]
  | .sending r => [r]
  | .returned => []

/-- Paths the walking goroutine still has to send. -/
def pendingWalker (walk : List WalkEntry) : Option WalkerPc → List String
  | none => (walker walk).1
  | some (.walking rest) => (walker rest).1
  | some (.sending p rest) => p :: (walker rest).1
  | some (.walkReturned _) => []
  | some .returned => []

/-- Number of workers that have not returned. -/
def activeWorkers : List WorkerPc → Nat
  | [] => 0
  | .returned :: rest => activeWorkers rest
  | _ :: rest => activeWorkers rest + 1

/-- A small tree: one directory with two files of equal content and one file
that cannot be opened. -/
def demoConfig : Config :=
  { fs := fun p =>
      if p = "root/a.txt" then .readable helloBytes
      else if p = "root/b.txt" then .readable helloBytes
      else .openError "permission denied",
    walk := [⟨"root", true, none⟩, ⟨"root/a.txt", false, none⟩,
             ⟨"root/x.txt", false, none⟩, ⟨"root/b.txt", false, none⟩],
    numWorkers := 2,
    output := .existing "old\n" }

/-- A schedule of `demoConfig` that runs the call to its return. -/
def demoSchedule : List Action :=
  [.main, .main, .main, .main, .main, .main,
   .walker, .walker, .workerReceive 1, .walker, .workerReceive 0, .worker 0,
   .worker 1, .walker, .workerReceive 0, .mainReceive 1, .worker 0, .walker,
   .walker, .worker 1, .mainReceive 0, .worker 0, .closer, .closer,
   .mainFinish [("5d41402abc4b2a76b9719d911017c592", ["root/a.txt", "root/b.txt"])]]

/-- What the position of the main goroutine says about the goroutines started
so far. -/
def mainInv (cfg : Config) (s : State) : Prop :=
  match s.main with
  | .opening => s.workers = [] ∧ s.walker = none ∧ s.closer = none
  | .spawningWorkers i =>
    s.workers.length = i ∧ i ≤ cfg.numWorkers ∧ s.walker = none ∧ s.closer = none
  | .spawningWalker =>
    s.workers.length = cfg.numWorkers ∧ s.walker = none ∧ s.closer = none
  | .spawningCloser =>
    s.workers.length = cfg.numWorkers ∧ s.walker.isSome = true ∧ s.closer = none
  | .collecting =>
    s.workers.length = cfg.numWorkers ∧ s.walker.isSome = true ∧ s.closer.isSome = true
  | .returned =>
    s.workers.length = cfg.numWorkers ∧ s.walker.isSome = true ∧ s.resultsClosed = true
  | .fatal _ => s.workers = [] ∧ s.walker = none ∧ s.closer = none

/-- The invariant of the transition system. -/
structure Inv (cfg : Config) (s : State) : Prop where
  wg_eq : s.wg = activeWorkers s.workers
  worker_returned : WorkerPc.returned ∈ s.workers → s.filesClosed = true
  files_closed : s.filesClosed = true ↔ s.walker = some .returned
  results_closed : s.resultsClosed = true ↔ s.closer = some .returned
  closer_done : s.closer = some .closing ∨ s.closer = some .returned → s.wg = 0
  no_panic : s.panicked = false
  main_pc : mainInv cfg s
  hashes : s.fileHashes = collectResults s.received
  traffic :
    (s.received ++ s.workers.flatMap (pendingWorker cfg.fs)
        ++ worker cfg.fs (pendingWalker cfg.walk s.walker)).Perm
      (worker cfg.fs (walker cfg.walk).1)
  sent_eq : s.sent ++ pendingWalker cfg.walk s.walker = (walker cfg.walk).1

/-- What the position of the main goroutine says about the output file and
the duplicate count. -/
def outInv (cfg : Config) (s : State) : Prop :=
  match s.main with
  | .opening => s.duplicateCount = 0
  | .fatal err => openFile cfg.output = .error err
  | .returned =>
    ∃ content order, openFile cfg.output = .ok content ∧ order.Perm s.fileHashes ∧
      s.file = (report content order).file ∧
      s.duplicateCount = (report content order).duplicateCount
  | _ => openFile cfg.output = .ok s.file ∧ s.duplicateCount = 0

/-- The state of `demoConfig` right after `close(resultsChan)`. -/
def demoClosedState : State :=
  (CheckDuplicateFiles demoConfig (demoSchedule.take 24)).getD State.init

/-- The state of `demoConfig` at the return of the call. -/
def demoFinalState : State :=
  (CheckDuplicateFiles demoConfig demoSchedule).getD State.init

/-- Steps the main goroutine and the goroutines it has yet to start can still
take, as a bound. -/
def measureMain (cfg : Config) : MainPc → Nat
  | .opening => 5 * cfg.walk.length + 9 + 2 * cfg.numWorkers
  | .spawningWorkers i => 5 * cfg.walk.length + 8 + 2 * (cfg.numWorkers - i)
  | .spawningWalker => 5 * cfg.walk.length + 7
  | .spawningCloser => 4
  | .collecting => 1
  | .returned => 0
  | .fatal _ => 0

/-- Bound on the steps a worker can take before it next receives. -/
def measureWorker : WorkerPc → Nat
  | .returned => 0
  | .receiving => 1
  | .sending _ => 2
  | .hashing _ => 3

/-- Bound on the steps the walking goroutine, and the workers on its behalf,
can still take. -/
def measureWalker : Option WalkerPc → Nat
  | none => 0
  | some (.walking rest) => 5 * rest.length + 2
  | some (.sending _ rest) => 5 * rest.length + 6
  | some (.walkReturned _) => 1
  | some .returned => 0

/-- Bound on the steps the closing goroutine can still take. -/
def measureCloser : Option CloserPc → Nat
  | none => 0
  | some .waiting => 2
  | some .closing => 1
  | some .returned => 0

/-- Bound on the number of steps the call can still take. -/
def measure (cfg : Config) (s : State) : Nat :=
  measureMain cfg s.main + (s.workers.map measureWorker).sum + measureWalker s.walker
    + measureCloser s.closer + (if s.panicked then 0 else 1)

/-- Whether paths `p` and `q` stand in one group of the aggregate. -/
def sameGroup (m : HashMap) (p q : String) : Bool :=
  m.any fun e => decide (p ∈ e.2) && decide (q ∈ e.2)

/-- First of two distinct 128-byte contents with one MD5 digest (Wang, Feng,
Lai and Yu, 2004). -/
def collisionA : List Byte :=
  [0xd1, 0x31, 0xdd, 0x02, 0xc5, 0xe6, 0xee, 0xc4, 0x69, 0x3d, 0x9a, 0x06, 0x98, 0xaf, 0xf9, 0x5c,
   0x2f, 0xca, 0xb5, 0x87, 0x12, 0x46, 0x7e, 0xab, 0x40, 0x04, 0x58, 0x3e, 0xb8, 0xfb, 0x7f, 0x89,
   0x55, 0xad, 0x34, 0x06, 0x09, 0xf4, 0xb3, 0x02, 0x83, 0xe4, 0x88, 0x83, 0x25, 0x71, 0x41, 0x5a,
   0x08, 0x51, 0x25, 0xe8, 0xf7, 0xcd, 0xc9, 0x9f, 0xd9, 0x1d, 0xbd, 0xf2, 0x80, 0x37, 0x3c, 0x5b,
   0xd8, 0x82, 0x3e, 0x31, 0x56, 0x34, 0x8f, 0x5b, 0xae, 0x6d, 0xac, 0xd4, 0x36, 0xc9, 0x19, 0xc6,
   0xdd, 0x53, 0xe2, 0xb4, 0x87, 0xda, 0x03, 0xfd, 0x02, 0x39, 0x63, 0x06, 0xd2, 0x48, 0xcd, 0xa0,
   0xe9, 0x9f, 0x33, 0x42, 0x0f, 0x57, 0x7e, 0xe8, 0xce, 0x54, 0xb6, 0x70, 0x80, 0xa8, 0x0d, 0x1e,
   0xc6, 0x98, 0x21, 0xbc, 0xb6, 0xa8, 0x83, 0x93, 0x96, 0xf9, 0x65, 0x2b, 0x6f, 0xf7, 0x2a, 0x70]

/-- Second content of the colliding pair. -/
def collisionB : List Byte :=
  [0xd1, 0x31, 0xdd, 0x02, 0xc5, 0xe6, 0xee, 0xc4, 0x69, 0x3d, 0x9a, 0x06, 0x98, 0xaf, 0xf9, 0x5c,
   0x2f, 0xca, 0xb5, 0x07, 0x12, 0x46, 0x7e, 0xab, 0x40, 0x04, 0x58, 0x3e, 0xb8, 0xfb, 0x7f, 0x89,
   0x55, 0xad, 0x34, 0x06, 0x09, 0xf4, 0xb3, 0x02, 0x83, 0xe4, 0x88, 0x83, 0x25, 0xf1, 0x41, 0x5a,
   0x08, 0x51, 0x25, 0xe8, 0xf7, 0xcd, 0xc9, 0x9f, 0xd9, 0x1d, 0xbd, 0x72, 0x80, 0x37, 0x3c, 0x5b,
   0xd8, 0x82, 0x3e, 0x31, 0x56, 0x34, 0x8f, 0x5b, 0xae, 0x6d, 0xac, 0xd4, 0x36, 0xc9, 0x19, 0xc6,
   0xdd, 0x53, 0xe2, 0x34, 0x87, 0xda, 0x03, 0xfd, 0x02, 0x39, 0x63, 0x06, 0xd2, 0x48, 0xcd, 0xa0,
   0xe9, 0x9f, 0x33, 0x42, 0x0f, 0x57, 0x7e, 0xe8, 0xce, 0x54, 0xb6, 0x70, 0x80, 0x28, 0x0d, 0x1e,
   0xc6, 0x98, 0x21, 0xbc, 0xb6, 0xa8, 0x83, 0x93, 0x96, 0xf9, 0x65, 0xab, 0x6f, 0xf7, 0x2a, 0x70]

/-- A tree with the two colliding files. -/
def collisionFS : FileSystem := fun p =>
  if p = "root/a.bin" then .readable collisionA
  else if p = "root/b.bin" then .readable collisionB
  else .openError "no such file"

/-- A tree whose walk fails at a sub-directory after two files were visited;
a third file would have come later. -/
def abortConfig : Config :=
  { fs := fun p =>
      if p = "root/a.txt" then .readable helloBytes
      else if p = "root/b.txt" then .readable helloBytes
      else if p = "root/z.txt" then .readable helloBytes
      else .openError "is a directory",
    walk := [⟨"root", true, none⟩, ⟨"root/a.txt", false, none⟩,
             ⟨"root/b.txt", false, none⟩, ⟨"root/sub", true, some "permission denied"⟩,
             ⟨"root/z.txt", false, none⟩],
    numWorkers := 1,
    output := .absent }

/-- A schedule of `abortConfig` that runs the call to its return. -/
def abortSchedule : List Action :=
  [.main, .main, .main, .main, .main, .walker, .walker, .workerReceive 0, .worker 0,
   .mainReceive 0, .walker, .workerReceive 0, .worker 0, .mainReceive 0, .walker,
   .walker, .worker 0, .closer, .closer,
   .mainFinish [("5d41402abc4b2a76b9719d911017c592", ["root/a.txt", "root/b.txt"])]]

/-- The state of `abortConfig` at the return of the call. -/
def abortFinalState : State :=
  (CheckDuplicateFiles abortConfig abortSchedule).getD State.init

/-! # Lemmas and theorems -/

/-! ## Lemmas on `HashMap` -/

theorem HashMap.get_set_self (m : HashMap) (k : String) (v : List String) :
    (m.set k v).get k = v := by
  induction m with
  | nil => simp [HashMap.set, HashMap.get]
  | cons e rest ih =>
    obtain ⟨k', v'⟩ := e
    by_cases h : k' = k
    · simp [HashMap.set, HashMap.get, h]
    · simp [HashMap.set, HashMap.get, h, ih]

theorem HashMap.get_set_ne (m : HashMap) (k d : String) (v : List String) (hkd : k ≠ d) :
    (m.set k v).get d = m.get d := by
  induction m with
  | nil => simp [HashMap.set, HashMap.get, hkd]
  | cons e rest ih =>
    obtain ⟨k', v'⟩ := e
    by_cases h : k' = k
    · subst h
      simp [HashMap.set, HashMap.get, hkd]
    · by_cases h2 : k' = d
      · subst h2
        simp [HashMap.set, HashMap.get, h]
      · simp [HashMap.set, HashMap.get, h, h2, ih]

theorem HashMap.keys_set (m : HashMap) (k : String) (v : List String) :
    (m.set k v).keys = if k ∈ m.keys then m.keys else m.keys ++ [k] := by
  induction m with
  | nil => simp [HashMap.set, HashMap.keys]
  | cons e rest ih =>
    obtain ⟨k', v'⟩ := e
    by_cases h : k' = k
    · subst h
      simp [HashMap.set, HashMap.keys]
    · have h2 : ¬ k = k' := fun h3 => h h3.symm
      simp only [HashMap.keys] at ih
      simp only [HashMap.set, HashMap.keys, h, if_false, List.map_cons, List.mem_cons, h2,
        false_or, ih]
      split <;> simp

theorem HashMap.keys_nodup_set {m : HashMap} (k : String) (v : List String)
    (h : m.keys.Nodup) : (m.set k v).keys.Nodup := by
  rw [HashMap.keys_set]
  split
  · exact h
  · rename_i hk
    exact List.Nodup.append h (List.nodup_singleton k) (by simpa using hk)

/-- In a map with distinct keys, the entries are the pairs of a key and what
the key reads. -/
theorem HashMap.mem_iff_get {m : HashMap} (hm : m.keys.Nodup) (k : String) (v : List String) :
    (k, v) ∈ m ↔ k ∈ m.keys ∧ m.get k = v := by
  induction m with
  | nil => simp [HashMap.keys]
  | cons e rest ih =>
    obtain ⟨k', v'⟩ := e
    simp only [HashMap.keys, List.map_cons, List.nodup_cons] at hm
    have ih2 := ih hm.2
    simp only [HashMap.keys] at ih2
    by_cases h : k' = k
    · subst h
      have hnot : ∀ w, (k', w) ∉ rest := fun w hw => hm.1 (List.mem_map_of_mem Prod.fst hw)
      simp only [HashMap.keys, HashMap.get, List.mem_cons, Prod.mk.injEq, true_and, List.map_cons,
        true_or, if_true]
      constructor
      · rintro (h | h)
        · exact h.symm
        · exact absurd h (hnot v)
      · intro h
        exact Or.inl h.symm
    · have h2 : ¬ k = k' := fun h3 => h h3.symm
      simp [HashMap.keys, HashMap.get, h, h2, ih2]

theorem HashMap.get_of_not_mem_keys {m : HashMap} {k : String} (h : k ∉ m.keys) :
    m.get k = [] := by
  induction m with
  | nil => rfl
  | cons e rest ih =>
    obtain ⟨k', v'⟩ := e
    simp only [HashMap.keys, List.map_cons, List.mem_cons, not_or] at h
    have h1 : ¬ k' = k := fun h3 => h.1 h3.symm
    simp only [HashMap.get, h1, if_false]
    exact ih h.2

/-- A permutation of a map with distinct keys reads the same at every key. -/
theorem HashMap.get_perm {m order : HashMap} (hm : m.keys.Nodup) (hp : order.Perm m)
    (k : String) : order.get k = m.get k := by
  have ho : order.keys.Nodup := (hp.map Prod.fst).nodup_iff.mpr hm
  by_cases hk : k ∈ m.keys
  · have h1 : (k, m.get k) ∈ m := (HashMap.mem_iff_get hm k _).mpr ⟨hk, rfl⟩
    have h2 : (k, m.get k) ∈ order := hp.mem_iff.mpr h1
    exact ((HashMap.mem_iff_get ho k _).mp h2).2
  · have hk2 : k ∉ order.keys := fun h => hk ((hp.map Prod.fst).mem_iff.mp h)
    rw [HashMap.get_of_not_mem_keys hk, HashMap.get_of_not_mem_keys hk2]

/-! ## Lemmas on the collecting loop -/

theorem get_collect (m : HashMap) (r : fileInfo) (d : String) :
    (collect m r).get d = m.get d ++ (if r.hash = d then [r.path] else []) := by
  unfold collect
  by_cases h : r.hash = d
  · subst h
    simp [HashMap.get_set_self]
  · simp [HashMap.get_set_ne _ _ _ _ h, h]

theorem get_foldl_collect (results : List fileInfo) (m : HashMap) (d : String) :
    (results.foldl collect m).get d = m.get d ++ pathsWithDigest results d := by
  induction results generalizing m with
  | nil => simp [pathsWithDigest]
  | cons r rest ih =>
    rw [List.foldl_cons, ih, get_collect]
    by_cases h : r.hash = d
    · simp [pathsWithDigest, h]
    · simp [pathsWithDigest, h]

theorem keys_nodup_foldl_collect (results : List fileInfo) (m : HashMap)
    (hm : m.keys.Nodup) : (results.foldl collect m).keys.Nodup := by
  induction results generalizing m with
  | nil => exact hm
  | cons r rest ih =>
    rw [List.foldl_cons]
    exact ih _ (HashMap.keys_nodup_set _ _ hm)

theorem mem_keys_foldl_collect (results : List fileInfo) (m : HashMap) (d : String) :
    d ∈ (results.foldl collect m).keys ↔ d ∈ m.keys ∨ ∃ r ∈ results, r.hash = d := by
  induction results generalizing m with
  | nil => simp
  | cons r rest ih =>
    rw [List.foldl_cons, ih]
    have hk : d ∈ (collect m r).keys ↔ d ∈ m.keys ∨ r.hash = d := by
      unfold collect
      rw [HashMap.keys_set]
      split
      · rename_i hmem
        constructor
        · exact Or.inl
        · rintro (h | h)
          · exact h
          · exact h ▸ hmem
      · simp [eq_comm]
    rw [hk]
    simp only [List.mem_cons, exists_eq_or_imp, or_assoc]

theorem collectResults_keys_nodup (results : List fileInfo) :
    (collectResults results).keys.Nodup :=
  keys_nodup_foldl_collect results [] List.nodup_nil

theorem collectResults_get (results : List fileInfo) (d : String) :
    (collectResults results).get d = pathsWithDigest results d := by
  unfold collectResults
  rw [get_foldl_collect]
  rfl

theorem collectResults_mem_keys (results : List fileInfo) (d : String) :
    d ∈ (collectResults results).keys ↔ ∃ r ∈ results, r.hash = d := by
  unfold collectResults
  rw [mem_keys_foldl_collect]
  simp [HashMap.keys]

theorem pathsWithDigest_ne_nil_iff (results : List fileInfo) (d : String) :
    pathsWithDigest results d ≠ [] ↔ ∃ r ∈ results, r.hash = d := by
  unfold pathsWithDigest
  rw [Ne, List.map_eq_nil_iff, List.filter_eq_nil_iff]
  simp

/-- The entries of the aggregate: one per digest that occurs, holding the paths
that carry it. -/
theorem mem_collectResults (results : List fileInfo) (d : String) (paths : List String) :
    (d, paths) ∈ collectResults results ↔
      paths = pathsWithDigest results d ∧ paths ≠ [] := by
  rw [HashMap.mem_iff_get (collectResults_keys_nodup results), collectResults_get,
    collectResults_mem_keys, ← pathsWithDigest_ne_nil_iff]
  constructor
  · rintro ⟨h1, h2⟩
    exact ⟨h2.symm, h2 ▸ h1⟩
  · rintro ⟨h1, h2⟩
    exact ⟨h1 ▸ h2, h1.symm⟩

/-! ## Lemmas on the report loop -/

theorem foldl_writePath (paths : List String) (st : ReportState) :
    paths.foldl writePath st =
      { writer := ⟨st.writer.file,
                   st.writer.buf ++ paths.foldr (fun p acc => p ++ "\n" ++ acc) ""⟩,
        log := st.log ++ paths.map LogEntry.line,
        duplicateCount := st.duplicateCount } := by
  induction paths generalizing st with
  | nil => simp
  | cons p rest ih =>
    rw [List.foldl_cons, ih]
    simp [writePath, Writer.WriteString, String.append_assoc]

theorem renderGroup_eq (paths : List String) :
    renderGroup paths = paths.foldr (fun p acc => p ++ "\n" ++ acc) "" ++ "\n" := by
  unfold renderGroup
  induction paths with
  | nil => simp
  | cons p rest ih =>
    simp only [List.foldr_cons, String.append_assoc] at ih ⊢
    rw [ih]

theorem writeGroup_of_lt (st : ReportState) (e : String × List String)
    (h : 1 < e.2.length) :
    writeGroup st e =
      { writer := ⟨st.writer.file, st.writer.buf ++ renderGroup e.2⟩,
        log := st.log ++ groupLog e,
        duplicateCount := st.duplicateCount + 1 } := by
  unfold writeGroup
  rw [if_pos h]
  simp only [foldl_writePath, Writer.WriteString, renderGroup_eq, groupLog,
    String.append_assoc, List.append_assoc, List.singleton_append, List.cons_append,
    List.nil_append]

theorem writeGroup_of_le (st : ReportState) (e : String × List String)
    (h : e.2.length ≤ 1) : writeGroup st e = st := by
  unfold writeGroup
  rw [if_neg (by omega)]

theorem writeResults_eq (order : List (String × List String)) (st : ReportState) :
    writeResults order st =
      { writer := ⟨st.writer.file,
                   st.writer.buf ++ renderGroups ((duplicateGroups order).map Prod.snd)⟩,
        log := st.log ++ (duplicateGroups order).flatMap groupLog,
        duplicateCount := st.duplicateCount + (duplicateGroups order).length } := by
  unfold writeResults
  induction order generalizing st with
  | nil => simp [duplicateGroups, renderGroups]
  | cons e rest ih =>
    rw [List.foldl_cons, ih]
    by_cases h : 1 < e.2.length
    · rw [writeGroup_of_lt st e h]
      simp [duplicateGroups, h, renderGroups, String.append_assoc, Nat.add_assoc,
        Nat.add_comm 1]
    · rw [writeGroup_of_le st e (by omega)]
      simp [duplicateGroups, h]

theorem report_eq (content : String) (order : List (String × List String)) :
    report content order =
      { file := content ++ renderGroups ((duplicateGroups order).map Prod.snd),
        log := (duplicateGroups order).flatMap groupLog ++
          [LogEntry.duplicatesFound (duplicateGroups order).length],
        duplicateCount := (duplicateGroups order).length } := by
  unfold report
  simp [writeResults_eq, Writer.Flush]

theorem HashMap.sum_length_set (m : HashMap) (k p : String) :
    ((m.set k (m.get k ++ [p])).map fun e => e.2.length).sum
      = (m.map fun e => e.2.length).sum + 1 := by
  induction m with
  | nil => simp [HashMap.set, HashMap.get]
  | cons e rest ih =>
    obtain ⟨k', v'⟩ := e
    by_cases h : k' = k
    · simp [HashMap.set, HashMap.get, h]
      omega
    · simp only [HashMap.set, HashMap.get, h, if_false, List.map_cons, List.sum_cons, ih]
      omega

theorem sum_length_foldl_collect (results : List fileInfo) (m : HashMap) :
    ((results.foldl collect m).map fun e => e.2.length).sum
      = (m.map fun e => e.2.length).sum + results.length := by
  induction results generalizing m with
  | nil => simp
  | cons r rest ih =>
    rw [List.foldl_cons, ih]
    unfold collect
    rw [HashMap.sum_length_set, List.length_cons]
    omega

theorem mem_flatMap_groupLog (l : List (String × List String)) (h : String) :
    LogEntry.duplicateFilesFound h ∈ l.flatMap groupLog ↔ ∃ paths, (h, paths) ∈ l := by
  induction l with
  | nil => simp
  | cons e rest ih =>
    obtain ⟨a, b⟩ := e
    rw [List.flatMap_cons, List.mem_append, ih]
    have h1 : LogEntry.duplicateFilesFound h ∈ groupLog (a, b) ↔ h = a := by
      simp [groupLog]
    rw [h1]
    constructor
    · rintro (rfl | ⟨paths, hp⟩)
      · exact ⟨b, List.mem_cons_self _ _⟩
      · exact ⟨paths, List.mem_cons_of_mem _ hp⟩
    · rintro ⟨paths, hp⟩
      rcases List.mem_cons.mp hp with heq | hp
      · exact Or.inl (Prod.mk.inj heq).1
      · exact Or.inr ⟨paths, hp⟩

/-! ## Independence of arrival order and of iteration order -/

theorem pathsWithDigest_perm {rs1 rs2 : List fileInfo} (h : rs1.Perm rs2) (d : String) :
    (pathsWithDigest rs1 d).Perm (pathsWithDigest rs2 d) :=
  (h.filter _).map _

theorem mem_unorderedGroups_collectResults (results : List fileInfo) (d : String)
    (s : Multiset String) :
    (d, s) ∈ unorderedGroups (collectResults results) ↔
      s = (pathsWithDigest results d : Multiset String) ∧ pathsWithDigest results d ≠ [] := by
  unfold unorderedGroups
  rw [List.mem_map]
  constructor
  · rintro ⟨⟨d', paths⟩, hmem, heq⟩
    simp only [Prod.mk.injEq] at heq
    obtain ⟨rfl, rfl⟩ := heq
    have := (mem_collectResults results d' paths).mp hmem
    exact ⟨by rw [← this.1], this.1 ▸ this.2⟩
  · rintro ⟨rfl, hne⟩
    exact ⟨(d, pathsWithDigest results d),
      (mem_collectResults results d _).mpr ⟨rfl, hne⟩, rfl⟩

theorem nodup_unorderedGroups {m : HashMap} (hm : m.keys.Nodup) :
    (unorderedGroups m).Nodup := by
  apply List.Nodup.of_map Prod.fst
  unfold unorderedGroups
  rw [List.map_map]
  exact hm

/-- Permuted result streams give the same aggregate up to the order of the
entries and the order of the members. -/
theorem unorderedGroups_collectResults_perm {rs1 rs2 : List fileInfo} (h : rs1.Perm rs2) :
    (unorderedGroups (collectResults rs1)).Perm (unorderedGroups (collectResults rs2)) := by
  rw [List.perm_ext_iff_of_nodup (nodup_unorderedGroups (collectResults_keys_nodup rs1))
    (nodup_unorderedGroups (collectResults_keys_nodup rs2))]
  rintro ⟨d, s⟩
  rw [mem_unorderedGroups_collectResults, mem_unorderedGroups_collectResults]
  have hp := pathsWithDigest_perm h d
  have hq : (pathsWithDigest rs1 d : Multiset String) = pathsWithDigest rs2 d :=
    Multiset.coe_eq_coe.mpr hp
  have hn : pathsWithDigest rs1 d ≠ [] ↔ pathsWithDigest rs2 d ≠ [] := by
    constructor
    · intro h1 h2
      exact h1 (List.Perm.eq_nil (h2 ▸ hp))
    · intro h1 h2
      exact h1 (List.Perm.eq_nil (h2 ▸ hp.symm))
  rw [hq, hn]

theorem unorderedGroups_duplicateGroups (m : List (String × List String)) :
    unorderedGroups (duplicateGroups m)
      = (unorderedGroups m).filter fun e => 1 < Multiset.card e.2 := by
  unfold unorderedGroups duplicateGroups
  rw [List.filter_map]
  congr 1

/-- Any two visiting orders of the aggregates of permuted result streams hold
the same duplicate groups up to group order and member order. -/
theorem unorderedGroups_duplicateGroups_perm {rs1 rs2 : List fileInfo} (h : rs1.Perm rs2)
    {order1 order2 : HashMap} (h1 : order1.Perm (collectResults rs1))
    (h2 : order2.Perm (collectResults rs2)) :
    (unorderedGroups (duplicateGroups order1)).Perm
      (unorderedGroups (duplicateGroups order2)) := by
  rw [unorderedGroups_duplicateGroups, unorderedGroups_duplicateGroups]
  apply List.Perm.filter
  exact ((h1.map _).trans (unorderedGroups_collectResults_perm h)).trans (h2.map _).symm

theorem groupSets_eq (m : List (String × List String)) :
    groupSets m
      = ((unorderedGroups (duplicateGroups m)).map fun e => e.2.toFinset).toFinset := by
  unfold groupSets unorderedGroups
  rw [List.map_map]
  congr 1

theorem duplicateGroups_length_eq (m : List (String × List String)) :
    (duplicateGroups m).length = (unorderedGroups (duplicateGroups m)).length := by
  unfold unorderedGroups
  rw [List.length_map]

theorem groupSets_perm {rs1 rs2 : List fileInfo} (h : rs1.Perm rs2)
    {order1 order2 : HashMap} (h1 : order1.Perm (collectResults rs1))
    (h2 : order2.Perm (collectResults rs2)) : groupSets order1 = groupSets order2 := by
  rw [groupSets_eq, groupSets_eq]
  exact List.toFinset_eq_of_perm _ _ ((unorderedGroups_duplicateGroups_perm h h1 h2).map _)

/-! ## The duplicate count -/

theorem HashMap.eq_map_keys {m : HashMap} (hm : m.keys.Nodup) :
    m = m.keys.map fun d => (d, m.get d) := by
  induction m with
  | nil => rfl
  | cons e rest ih =>
    obtain ⟨k, v⟩ := e
    simp only [HashMap.keys, List.map_cons, List.nodup_cons] at hm
    have ih2 := ih hm.2
    simp only [HashMap.keys, List.map_cons, HashMap.get, if_true, List.cons.injEq, true_and]
    simp only [HashMap.keys] at ih2
    conv_lhs => rw [ih2]
    apply List.map_congr_left
    intro d hd
    have hne : ¬ k = d := fun h => hm.1 (h ▸ hd)
    simp [hne]

theorem duplicateGroups_length_keys {m : HashMap} (hm : m.keys.Nodup) :
    (duplicateGroups m).length
      = (m.keys.filter fun d => 1 < (m.get d).length).length := by
  conv_lhs => rw [HashMap.eq_map_keys hm]
  unfold duplicateGroups
  rw [List.filter_map, List.length_map]
  congr 1

theorem duplicateGroups_length_perm {rs1 rs2 : List fileInfo} (h : rs1.Perm rs2)
    {order1 order2 : HashMap} (h1 : order1.Perm (collectResults rs1))
    (h2 : order2.Perm (collectResults rs2)) :
    (duplicateGroups order1).length = (duplicateGroups order2).length := by
  rw [duplicateGroups_length_eq, duplicateGroups_length_eq]
  exact (unorderedGroups_duplicateGroups_perm h h1 h2).length_eq

set_option maxRecDepth 100000 in
theorem scenario_groups :
    (duplicateGroups (collectResults (worker scenarioFS (walker scenarioWalk).1))).length
      = 1 := by
  decide

/-! ## Lemmas on the stream functions -/

theorem worker_append (fs : FileSystem) (l1 l2 : List String) :
    worker fs (l1 ++ l2) = worker fs l1 ++ worker fs l2 := by
  induction l1 with
  | nil => rfl
  | cons f rest ih =>
    rw [List.cons_append]
    cases h : (workerStep fs f).1 with
    | none => simp [worker, h, ih]
    | some r => simp [worker, h, ih]

theorem worker_cons (fs : FileSystem) (f : String) (l : List String) :
    worker fs (f :: l) = worker fs [f] ++ worker fs l :=
  worker_append fs [f] l

theorem worker_singleton_none {fs : FileSystem} {f : String} {lg : List LogEntry}
    (h : workerStep fs f = (none, lg)) : worker fs [f] = [] := by
  simp [worker, h]

theorem worker_singleton_some {fs : FileSystem} {f : String} {r : fileInfo}
    {lg : List LogEntry} (h : workerStep fs f = (some r, lg)) : worker fs [f] = [r] := by
  simp [worker, h]

/-! ## Lemmas on the worker pool -/

theorem exists_split_of_getElem? {α : Type} {l : List α} {i : Nat} {w : α}
    (h : l[i]? = some w) :
    ∃ pre post, l = pre ++ w :: post ∧ ∀ w1, l.set i w1 = pre ++ w1 :: post := by
  obtain ⟨hi, hw⟩ := List.getElem?_eq_some.mp h
  refine ⟨l.take i, l.drop (i + 1), ?_, fun w1 => ?_⟩
  · rw [← hw, ← List.drop_eq_getElem_cons hi, List.take_append_drop]
  · rw [List.set_eq_take_append_cons_drop, if_pos hi]

theorem activeWorkers_append (l1 l2 : List WorkerPc) :
    activeWorkers (l1 ++ l2) = activeWorkers l1 + activeWorkers l2 := by
  induction l1 with
  | nil => simp [activeWorkers]
  | cons w rest ih =>
    cases w <;> simp [activeWorkers, ih] <;> omega

theorem activeWorkers_cons (w : WorkerPc) (l : List WorkerPc) :
    activeWorkers (w :: l) = (if w = .returned then 0 else 1) + activeWorkers l := by
  cases w <;> simp [activeWorkers] <;> omega

theorem activeWorkers_eq_zero {l : List WorkerPc} (h : activeWorkers l = 0) :
    ∀ w ∈ l, w = .returned := by
  induction l with
  | nil => simp
  | cons w rest ih =>
    rw [activeWorkers_cons] at h
    intro w1 hw1
    rcases List.mem_cons.mp hw1 with rfl | hmem
    · by_contra hne
      rw [if_neg hne] at h
      omega
    · exact ih (by omega) w1 hmem

/-! ## The invariant is kept by every step -/

theorem inv_init (cfg : Config) : Inv cfg State.init where
  wg_eq := rfl
  worker_returned := by simp [State.init]
  files_closed := by simp [State.init]
  results_closed := by simp [State.init]
  closer_done := by simp [State.init]
  no_panic := rfl
  main_pc := by simp [mainInv, State.init]
  hashes := rfl
  traffic := by simp [State.init, pendingWalker]
  sent_eq := by simp [State.init, pendingWalker]

theorem inv_stepMain {cfg : Config} {s s1 : State} (hinv : Inv cfg s)
    (h : stepMain cfg s = some s1) : Inv cfg s1 := by
  obtain ⟨h1, h2, h3, h4, h5, h6, h7, h8, h9, h10⟩ := hinv
  unfold stepMain at h
  cases hm : s.main with
  | opening =>
    rw [hm] at h
    simp only [mainInv, hm] at h7
    cases ho : openFile cfg.output with
    | error err =>
      simp only [ho, Option.some.injEq] at h
      subst h
      exact ⟨h1, h2, h3, h4, h5, h6, by simpa [mainInv] using h7, h8, h9, h10⟩
    | ok content =>
      simp only [ho, Option.some.injEq] at h
      subst h
      exact ⟨h1, h2, h3, h4, h5, h6, by simp [mainInv, h7], h8, h9, h10⟩
  | spawningWorkers i =>
    rw [hm] at h
    simp only [mainInv, hm] at h7
    by_cases hi : i < cfg.numWorkers
    · simp only [hi, if_true, Option.some.injEq] at h
      subst h
      refine ⟨?_, ?_, h3, h4, ?_, h6, ?_, h8, ?_, h10⟩
      · simp [activeWorkers_append, activeWorkers, h1]
      · simpa using h2
      · simp [h7]
      · simp [mainInv, h7]; omega
      · simpa [pendingWorker] using h9
    · simp only [hi, if_false, Option.some.injEq] at h
      subst h
      refine ⟨h1, h2, h3, h4, h5, h6, ?_, h8, h9, h10⟩
      simp [mainInv, h7]; omega
  | spawningWalker =>
    rw [hm] at h
    simp only [mainInv, hm] at h7
    simp only [Option.some.injEq] at h
    subst h
    refine ⟨h1, h2, ?_, h4, h5, h6, ?_, h8, ?_, ?_⟩
    · simpa [h7] using h3
    · simp [mainInv, h7]
    · simpa [pendingWalker, h7] using h9
    · simpa [pendingWalker, h7] using h10
  | spawningCloser =>
    rw [hm] at h
    simp only [mainInv, hm] at h7
    simp only [Option.some.injEq] at h
    subst h
    refine ⟨h1, h2, h3, ?_, ?_, h6, ?_, h8, h9, h10⟩
    · simpa [h7] using h4
    · simp
    · simp [mainInv, h7]
  | collecting => rw [hm] at h; simp at h
  | returned => rw [hm] at h; simp at h
  | fatal err => rw [hm] at h; simp at h

theorem collectResults_append (rs : List fileInfo) (r : fileInfo) :
    collectResults (rs ++ [r]) = collect (collectResults rs) r := by
  simp [collectResults, List.foldl_append]

theorem inv_stepMainReceive {cfg : Config} {s s1 : State} {i : Nat} (hinv : Inv cfg s)
    (h : stepMainReceive s i = some s1) : Inv cfg s1 := by
  obtain ⟨h1, h2, h3, h4, h5, h6, h7, h8, h9, h10⟩ := hinv
  unfold stepMainReceive at h
  split at h
  · rename_i r hm hw
    split at h
    · simp at h
    · simp only [Option.some.injEq] at h
      subst h
      obtain ⟨pre, post, hl, hset⟩ := exists_split_of_getElem? hw
      simp only [hset]
      rw [hl] at h1 h2 h9
      refine ⟨?_, ?_, h3, h4, h5, h6, ?_, ?_, ?_, h10⟩
      · simpa [activeWorkers_append, activeWorkers_cons] using h1
      · simpa using h2
      · simp only [mainInv, hm, hl, List.length_append, List.length_cons] at h7 ⊢
        exact h7
      · simp only [collectResults_append, h8]
      · refine List.Perm.trans ?_ h9
        simp only [List.flatMap_append, List.flatMap_cons, pendingWorker]
        rw [List.perm_iff_count]
        intro a
        simp only [List.count_append, List.count_nil]
        omega
  · simp at h

theorem inv_stepMainFinish {cfg : Config} {s s1 : State} {order : HashMap}
    (hinv : Inv cfg s) (h : stepMainFinish s order = some s1) : Inv cfg s1 := by
  obtain ⟨h1, h2, h3, h4, h5, h6, h7, h8, h9, h10⟩ := hinv
  unfold stepMainFinish at h
  split at h
  · rename_i hg
    simp only [Option.some.injEq] at h
    subst h
    refine ⟨h1, h2, h3, h4, h5, h6, ?_, h8, h9, h10⟩
    simp only [mainInv, hg.1] at h7 ⊢
    exact ⟨h7.1, h7.2.1, hg.2.1⟩
  · simp at h

theorem inv_stepWorkerReceive {cfg : Config} {s s1 : State} {i : Nat} (hinv : Inv cfg s)
    (h : stepWorkerReceive s i = some s1) : Inv cfg s1 := by
  obtain ⟨h1, h2, h3, h4, h5, h6, h7, h8, h9, h10⟩ := hinv
  unfold stepWorkerReceive at h
  split at h
  · rename_i p rest hwalk hw
    simp only [Option.some.injEq] at h
    subst h
    obtain ⟨pre, post, hl, hset⟩ := exists_split_of_getElem? hw
    simp only [hset]
    rw [hl] at h1 h2 h9
    rw [hwalk] at h3 h9 h10
    refine ⟨?_, ?_, ?_, h4, h5, h6, ?_, h8, ?_, ?_⟩
    · simpa [activeWorkers_append, activeWorkers_cons] using h1
    · simpa using h2
    · simpa using h3
    · unfold mainInv at h7 ⊢
      simp only [hl, hwalk, List.length_append, List.length_cons] at h7 ⊢
      cases hm : s.main <;> simp only [hm] at h7 ⊢ <;> simp_all
    · refine List.Perm.trans ?_ h9
      simp only [List.flatMap_append, List.flatMap_cons, pendingWorker, pendingWalker]
      rw [worker_cons cfg.fs p (walker rest).1]
      rw [List.perm_iff_count]
      intro a
      simp only [List.count_append, List.count_nil]
      omega
    · simpa [pendingWalker] using h10
  · simp at h

theorem activeWorkers_pos_of_mem {l : List WorkerPc} {w : WorkerPc} (hw : w ∈ l)
    (hne : w ≠ .returned) : 0 < activeWorkers l := by
  by_contra h
  exact hne (activeWorkers_eq_zero (by omega) w hw)

theorem inv_stepWorker {cfg : Config} {s s1 : State} {i : Nat} (hinv : Inv cfg s)
    (h : stepWorker cfg s i = some s1) : Inv cfg s1 := by
  obtain ⟨h1, h2, h3, h4, h5, h6, h7, h8, h9, h10⟩ := hinv
  unfold stepWorker at h
  split at h
  · rename_i file hw
    obtain ⟨pre, post, hl, hset⟩ := exists_split_of_getElem? hw
    rw [hl] at h1 h2 h9
    have hlen : ∀ w1, (pre ++ w1 :: post).length = s.workers.length := by
      intro w1; rw [hl]; simp
    split at h
    · rename_i lg hstep
      simp only [Option.some.injEq] at h
      subst h
      simp only [hset]
      refine ⟨?_, ?_, h3, h4, h5, h6, ?_, h8, ?_, h10⟩
      · simpa [activeWorkers_append, activeWorkers_cons] using h1
      · simpa using h2
      · unfold mainInv at h7 ⊢
        simp only [hlen]
        cases hm : s.main <;> simp only [hm] at h7 ⊢ <;> simp_all
      · refine List.Perm.trans ?_ h9
        simp only [List.flatMap_append, List.flatMap_cons, pendingWorker,
          worker_singleton_none hstep]
        exact List.Perm.refl _
    · rename_i r lg hstep
      simp only [Option.some.injEq] at h
      subst h
      simp only [hset]
      refine ⟨?_, ?_, h3, h4, h5, h6, ?_, h8, ?_, h10⟩
      · simpa [activeWorkers_append, activeWorkers_cons] using h1
      · simpa using h2
      · unfold mainInv at h7 ⊢
        simp only [hlen]
        cases hm : s.main <;> simp only [hm] at h7 ⊢ <;> simp_all
      · refine List.Perm.trans ?_ h9
        simp only [List.flatMap_append, List.flatMap_cons, pendingWorker,
          worker_singleton_some hstep]
        exact List.Perm.refl _
  · rename_i hw
    obtain ⟨pre, post, hl, hset⟩ := exists_split_of_getElem? hw
    rw [hl] at h1 h2 h9
    have hlen : ∀ w1, (pre ++ w1 :: post).length = s.workers.length := by
      intro w1; rw [hl]; simp
    have hpos : 0 < s.wg := by
      rw [h1]
      exact activeWorkers_pos_of_mem (w := .receiving) (by simp) (by simp)
    split at h
    · rename_i hfc
      rw [if_neg (by omega)] at h
      simp only [Option.some.injEq] at h
      subst h
      simp only [hset]
      refine ⟨?_, ?_, h3, h4, ?_, h6, ?_, h8, ?_, h10⟩
      · simp only [activeWorkers_append, activeWorkers_cons] at h1 ⊢
        simp at h1 ⊢
        omega
      · intro _
        exact hfc
      · intro hc
        have := h5 hc
        simp only
        omega
      · unfold mainInv at h7 ⊢
        simp only [hlen]
        cases hm : s.main <;> simp only [hm] at h7 ⊢ <;> simp_all
      · refine List.Perm.trans ?_ h9
        simp only [List.flatMap_append, List.flatMap_cons, pendingWorker]
        exact List.Perm.refl _
    · simp at h
  · rename_i r hw
    split at h
    · rename_i hrc
      exfalso
      have hwg := h5 (Or.inr (h4.mp hrc))
      have hpos : 0 < activeWorkers s.workers :=
        activeWorkers_pos_of_mem (w := .sending r)
          (List.mem_iff_getElem?.mpr ⟨i, hw⟩) (by simp)
      omega
    · simp at h
  · simp at h

theorem walker_cons_err {e : WalkEntry} {err : String} (rest : List WalkEntry)
    (h : e.err = some err) : walker (e :: rest) = ([], some err) := by
  simp [walker, h]

theorem walker_cons_file {e : WalkEntry} (rest : List WalkEntry) (h : e.err = none)
    (hd : e.isDir = false) :
    walker (e :: rest) = (e.path :: (walker rest).1, (walker rest).2) := by
  simp [walker, h, hd]

theorem walker_cons_dir {e : WalkEntry} (rest : List WalkEntry) (h : e.err = none)
    (hd : e.isDir = true) : walker (e :: rest) = walker rest := by
  simp [walker, h, hd]

theorem inv_stepWalker {cfg : Config} {s s1 : State} (hinv : Inv cfg s)
    (h : stepWalker s = some s1) : Inv cfg s1 := by
  obtain ⟨h1, h2, h3, h4, h5, h6, h7, h8, h9, h10⟩ := hinv
  have hmain : ∀ (s2 : State) (w : WalkerPc), s.walker.isSome = true →
      s2.main = s.main → s2.workers = s.workers → s2.closer = s.closer →
      s2.resultsClosed = s.resultsClosed → s2.walker = some w → mainInv cfg s2 := by
    intro s2 w hsome e1 e2 e3 e4 e5
    unfold mainInv at h7 ⊢
    rw [e1, e2, e3, e4, e5]
    cases hm : s.main <;> simp only [hm] at h7 ⊢ <;> simp_all
  unfold stepWalker at h
  split at h
  · rename_i hwalk
    simp only [Option.some.injEq] at h
    subst h
    rw [hwalk] at h3 h9 h10
    refine ⟨h1, h2, ?_, h4, h5, h6, ?_, h8, ?_, ?_⟩
    · simpa using h3
    · exact hmain _ _ (by simp [hwalk]) rfl rfl rfl rfl rfl
    · simpa [pendingWalker, walker] using h9
    · simpa [pendingWalker, walker] using h10
  · rename_i e rest hwalk
    rw [hwalk] at h3 h9 h10
    split at h
    · rename_i err herr
      simp only [Option.some.injEq] at h
      subst h
      refine ⟨h1, h2, ?_, h4, h5, h6, ?_, h8, ?_, ?_⟩
      · simpa using h3
      · exact hmain _ _ (by simp [hwalk]) rfl rfl rfl rfl rfl
      · simpa [pendingWalker, walker_cons_err rest herr] using h9
      · simpa [pendingWalker, walker_cons_err rest herr] using h10
    · rename_i herr
      by_cases hd : e.isDir = true
      · simp only [hd, Bool.not_true, Bool.false_eq_true, if_false, Option.some.injEq] at h
        subst h
        refine ⟨h1, h2, ?_, h4, h5, h6, ?_, h8, ?_, ?_⟩
        · simpa using h3
        · exact hmain _ _ (by simp [hwalk]) rfl rfl rfl rfl rfl
        · simpa [pendingWalker, walker_cons_dir rest herr hd] using h9
        · simpa [pendingWalker, walker_cons_dir rest herr hd] using h10
      · simp only [Bool.not_eq_true] at hd
        simp only [hd, Bool.not_false, if_true, Option.some.injEq] at h
        subst h
        refine ⟨h1, h2, ?_, h4, h5, h6, ?_, h8, ?_, ?_⟩
        · simpa using h3
        · exact hmain _ _ (by simp [hwalk]) rfl rfl rfl rfl rfl
        · simpa [pendingWalker, walker_cons_file rest herr hd] using h9
        · simpa [pendingWalker, walker_cons_file rest herr hd] using h10
  · rename_i err hwalk
    simp only [Option.some.injEq] at h
    subst h
    rw [hwalk] at h3 h9 h10
    refine ⟨h1, ?_, ?_, h4, h5, h6, ?_, h8, ?_, ?_⟩
    · intro _; rfl
    · simp
    · exact hmain _ _ (by simp [hwalk]) rfl rfl rfl rfl rfl
    · simpa [pendingWalker] using h9
    · simpa [pendingWalker] using h10
  · simp at h

theorem inv_stepCloser {cfg : Config} {s s1 : State} (hinv : Inv cfg s)
    (h : stepCloser s = some s1) : Inv cfg s1 := by
  obtain ⟨h1, h2, h3, h4, h5, h6, h7, h8, h9, h10⟩ := hinv
  have hmain : ∀ (s2 : State) (c : CloserPc), s.closer.isSome = true →
      s2.main = s.main → s2.workers = s.workers → s2.walker = s.walker →
      (s.resultsClosed = true → s2.resultsClosed = true) →
      s2.closer = some c → mainInv cfg s2 := by
    intro s2 c hsome e1 e2 e3 e4 e5
    unfold mainInv at h7 ⊢
    rw [e1, e2, e3, e5]
    cases hm : s.main <;> simp only [hm] at h7 ⊢ <;> simp_all
  unfold stepCloser at h
  split at h
  · rename_i hc
    split at h
    · rename_i hwg
      simp only [Option.some.injEq] at h
      subst h
      rw [hc] at h4
      refine ⟨h1, h2, h3, ?_, ?_, h6, ?_, h8, h9, h10⟩
      · simpa using h4
      · intro _; exact hwg
      · exact hmain _ _ (by simp [hc]) rfl rfl rfl (fun h => h) rfl
    · simp at h
  · rename_i hc
    simp only [Option.some.injEq] at h
    subst h
    refine ⟨h1, h2, h3, ?_, ?_, h6, ?_, h8, h9, h10⟩
    · simp
    · intro _; exact h5 (Or.inl hc)
    · exact hmain _ _ (by simp [hc]) rfl rfl rfl (fun _ => rfl) rfl
  · simp at h

theorem step_eq_some {cfg : Config} {s s1 : State} {a : Action}
    (h : step cfg s a = some s1) : s.panicked = false ∧ stepAction cfg s a = some s1 := by
  unfold step at h
  split at h
  · simp at h
  · rename_i hp
    exact ⟨by simpa using hp, h⟩

/-- Every step keeps the invariant. -/
theorem inv_step {cfg : Config} {s s1 : State} {a : Action} (hinv : Inv cfg s)
    (h : step cfg s a = some s1) : Inv cfg s1 := by
  replace h := (step_eq_some h).2
  cases a with
  | main => exact inv_stepMain hinv h
  | mainReceive i => exact inv_stepMainReceive hinv h
  | mainFinish order => exact inv_stepMainFinish hinv h
  | workerReceive i => exact inv_stepWorkerReceive hinv h
  | worker i => exact inv_stepWorker hinv h
  | walker => exact inv_stepWalker hinv h
  | closer => exact inv_stepCloser hinv h

theorem inv_run {cfg : Config} {s s1 : State} {schedule : List Action} (hinv : Inv cfg s)
    (h : run cfg s schedule = some s1) : Inv cfg s1 := by
  induction schedule generalizing s with
  | nil =>
    simp only [run, Option.some.injEq] at h
    exact h ▸ hinv
  | cons a rest ih =>
    simp only [run] at h
    split at h
    · simp at h
    · rename_i s2 hs
      exact ih (inv_step hinv hs) h

/-- The invariant holds in every reachable state. -/
theorem inv_of_reachable {cfg : Config} {s : State} (h : Reachable cfg s) : Inv cfg s := by
  obtain ⟨schedule, hs⟩ := h
  exact inv_run (inv_init cfg) hs

set_option maxRecDepth 100000 in
theorem demoClosedState_reachable : Reachable demoConfig demoClosedState :=
  ⟨demoSchedule.take 24, by decide⟩

/-! ## The output of a completed call -/

theorem outInv_congr {cfg : Config} {s s2 : State} (h : outInv cfg s)
    (e1 : s2.main = s.main) (e2 : s2.file = s.file)
    (e3 : s2.duplicateCount = s.duplicateCount) (e4 : s2.fileHashes = s.fileHashes) :
    outInv cfg s2 := by
  unfold outInv at h ⊢
  rw [e1, e2, e3, e4]
  exact h

theorem outInv_init (cfg : Config) : outInv cfg State.init := by
  simp [outInv, State.init]

theorem outInv_step {cfg : Config} {s s1 : State} {a : Action} (hinv : outInv cfg s)
    (h : step cfg s a = some s1) : outInv cfg s1 := by
  replace h := (step_eq_some h).2
  cases a with
  | main =>
    simp only [stepAction] at h
    unfold stepMain at h
    unfold outInv at hinv
    cases hm : s.main with
    | opening =>
      rw [hm] at h hinv
      cases ho : openFile cfg.output with
      | error err =>
        simp only [ho, Option.some.injEq] at h
        subst h
        simpa [outInv] using ho
      | ok content =>
        simp only [ho, Option.some.injEq] at h
        subst h
        simp only [outInv]
        exact ⟨ho, hinv⟩
    | spawningWorkers i =>
      rw [hm] at h hinv
      simp only at h hinv
      split at h <;> simp only [Option.some.injEq] at h <;> subst h <;>
        simpa [outInv] using hinv
    | spawningWalker =>
      rw [hm] at h hinv
      simp only [Option.some.injEq] at h hinv
      subst h
      simpa [outInv] using hinv
    | spawningCloser =>
      rw [hm] at h hinv
      simp only [Option.some.injEq] at h hinv
      subst h
      simpa [outInv] using hinv
    | collecting => rw [hm] at h; simp at h
    | returned => rw [hm] at h; simp at h
    | fatal err => rw [hm] at h; simp at h
  | mainReceive i =>
    simp only [stepAction, stepMainReceive] at h
    split at h
    · rename_i r hm hw
      split at h
      · simp at h
      · simp only [Option.some.injEq] at h
        subst h
        unfold outInv at hinv ⊢
        simp only [hm] at hinv ⊢
        exact hinv
    · simp at h
  | mainFinish order =>
    simp only [stepAction, stepMainFinish] at h
    split at h
    · rename_i hg
      simp only [Option.some.injEq] at h
      subst h
      unfold outInv at hinv ⊢
      simp only [hg.1] at hinv ⊢
      exact ⟨s.file, order, hinv.1, hg.2.2, rfl, rfl⟩
    · simp at h
  | workerReceive i =>
    simp only [stepAction, stepWorkerReceive] at h
    split at h
    · simp only [Option.some.injEq] at h
      subst h
      exact outInv_congr hinv rfl rfl rfl rfl
    · simp at h
  | worker i =>
    simp only [stepAction, stepWorker] at h
    split at h
    · split at h <;> simp only [Option.some.injEq] at h <;> subst h <;>
        exact outInv_congr hinv rfl rfl rfl rfl
    · split at h
      · split at h <;> simp only [Option.some.injEq] at h <;> subst h <;>
          exact outInv_congr hinv rfl rfl rfl rfl
      · simp at h
    · split at h
      · simp only [Option.some.injEq] at h
        subst h
        exact outInv_congr hinv rfl rfl rfl rfl
      · simp at h
    · simp at h
  | walker =>
    simp only [stepAction, stepWalker] at h
    split at h
    · simp only [Option.some.injEq] at h
      subst h
      exact outInv_congr hinv rfl rfl rfl rfl
    · split at h
      · simp only [Option.some.injEq] at h
        subst h
        exact outInv_congr hinv rfl rfl rfl rfl
      · split at h <;> simp only [Option.some.injEq] at h <;> subst h <;>
          exact outInv_congr hinv rfl rfl rfl rfl
    · simp only [Option.some.injEq] at h
      subst h
      exact outInv_congr hinv rfl rfl rfl rfl
    · simp at h
  | closer =>
    simp only [stepAction, stepCloser] at h
    split at h
    · split at h
      · simp only [Option.some.injEq] at h
        subst h
        exact outInv_congr hinv rfl rfl rfl rfl
      · simp at h
    · simp only [Option.some.injEq] at h
      subst h
      exact outInv_congr hinv rfl rfl rfl rfl
    · simp at h

theorem outInv_run {cfg : Config} {s s1 : State} {schedule : List Action}
    (hinv : outInv cfg s) (h : run cfg s schedule = some s1) : outInv cfg s1 := by
  induction schedule generalizing s with
  | nil =>
    simp only [run, Option.some.injEq] at h
    exact h ▸ hinv
  | cons a rest ih =>
    simp only [run] at h
    split at h
    · simp at h
    · rename_i s2 hs
      exact ih (outInv_step hinv hs) h

/-- A call that has returned, with at least one worker: the walker sent the
paths of the stream function `walker`, the records received are those of the
stream function `worker` on these paths in some order, and file and count are
those of `report` on the aggregate of the received records. -/
theorem returned_outcome {cfg : Config} {s : State} (hr : Reachable cfg s)
    (hn : 0 < cfg.numWorkers) (hm : s.main = .returned) :
    s.sent = (walker cfg.walk).1 ∧
    s.received.Perm (worker cfg.fs (walker cfg.walk).1) ∧
    s.fileHashes = collectResults s.received ∧
    ∃ content order, openFile cfg.output = .ok content ∧
      order.Perm (collectResults s.received) ∧
      s.file = (report content order).file ∧
      s.duplicateCount = (report content order).duplicateCount := by
  have hinv := inv_of_reachable hr
  obtain ⟨schedule, hs⟩ := hr
  have hout := outInv_run (outInv_init cfg) hs
  have hmain := hinv.main_pc
  unfold mainInv at hmain
  unfold outInv at hout
  simp only [hm] at hmain hout
  have hc := hinv.results_closed.mp hmain.2.2
  have hwg := hinv.closer_done (Or.inr hc)
  rw [hinv.wg_eq] at hwg
  have hall := activeWorkers_eq_zero hwg
  have hne : s.workers ≠ [] := by
    intro h
    have := hmain.1
    rw [h] at this
    simp at this
    omega
  obtain ⟨w, hw⟩ := List.exists_mem_of_ne_nil _ hne
  have hfc := hinv.worker_returned (hall w hw ▸ hw)
  have hwalk := hinv.files_closed.mp hfc
  have hpend : s.workers.flatMap (pendingWorker cfg.fs) = [] := by
    rw [List.flatMap_eq_nil_iff]
    intro w1 hw1
    rw [hall w1 hw1]
    rfl
  have ht := hinv.traffic
  have hsent := hinv.sent_eq
  rw [hwalk] at ht hsent
  simp only [pendingWalker, hpend, List.append_nil, worker] at ht hsent
  refine ⟨hsent, ht, hinv.hashes, ?_⟩
  obtain ⟨content, order, ho1, ho2, ho3, ho4⟩ := hout
  exact ⟨content, order, ho1, hinv.hashes ▸ ho2, ho3, ho4⟩

/-! ## Termination and absence of deadlock -/

theorem sum_measure_split (pre post : List WorkerPc) (w : WorkerPc) :
    ((pre ++ w :: post).map measureWorker).sum
      = (pre.map measureWorker).sum + measureWorker w + (post.map measureWorker).sum := by
  simp [List.sum_append, Nat.add_assoc]

/-- Every step lowers the bound: no schedule runs forever. -/
theorem measure_step {cfg : Config} {s s1 : State} {a : Action} (hinv : Inv cfg s)
    (h : step cfg s a = some s1) : measure cfg s1 < measure cfg s := by
  obtain ⟨hp, h⟩ := step_eq_some h
  have hmain := hinv.main_pc
  unfold mainInv at hmain
  cases a with
  | main =>
    simp only [stepAction] at h
    unfold stepMain at h
    cases hm : s.main with
    | opening =>
      rw [hm] at h hmain
      cases ho : openFile cfg.output with
      | error err =>
        simp only [ho, Option.some.injEq] at h
        subst h
        simp only [measure, hm, measureMain, hp]
        omega
      | ok content =>
        simp only [ho, Option.some.injEq] at h
        subst h
        simp only [measure, hm, measureMain, hp]
        omega
    | spawningWorkers i =>
      rw [hm] at h hmain
      simp only at h hmain
      split at h
      · rename_i hi
        simp only [Option.some.injEq] at h
        subst h
        simp only [measure, hm, measureMain, hp, List.map_append, List.sum_append,
          List.map_cons, List.map_nil, List.sum_cons, List.sum_nil, measureWorker]
        omega
      · simp only [Option.some.injEq] at h
        subst h
        simp only [measure, hm, measureMain, hp]
        omega
    | spawningWalker =>
      rw [hm] at h hmain
      simp only [Option.some.injEq] at h hmain
      subst h
      simp only [measure, hm, measureMain, hp, hmain.2.1, measureWalker]
      omega
    | spawningCloser =>
      rw [hm] at h hmain
      simp only [Option.some.injEq] at h hmain
      subst h
      simp only [measure, hm, measureMain, hp, hmain.2.2, measureCloser]
      omega
    | collecting => rw [hm] at h; simp at h
    | returned => rw [hm] at h; simp at h
    | fatal err => rw [hm] at h; simp at h
  | mainReceive i =>
    simp only [stepAction, stepMainReceive] at h
    split at h
    · rename_i r hm hw
      split at h
      · simp at h
      · simp only [Option.some.injEq] at h
        subst h
        obtain ⟨pre, post, hl, hset⟩ := exists_split_of_getElem? hw
        simp only [measure, hset, hp]
        rw [hl, sum_measure_split, sum_measure_split]
        simp only [measureWorker]
        omega
    · simp at h
  | mainFinish order =>
    simp only [stepAction, stepMainFinish] at h
    split at h
    · rename_i hg
      simp only [Option.some.injEq] at h
      subst h
      simp only [measure, hg.1, measureMain, hp]
      omega
    · simp at h
  | workerReceive i =>
    simp only [stepAction, stepWorkerReceive] at h
    split at h
    · rename_i p rest hwalk hw
      simp only [Option.some.injEq] at h
      subst h
      obtain ⟨pre, post, hl, hset⟩ := exists_split_of_getElem? hw
      simp only [measure, hset, hp, hwalk]
      rw [hl, sum_measure_split, sum_measure_split]
      simp only [measureWorker, measureWalker]
      omega
    · simp at h
  | worker i =>
    simp only [stepAction, stepWorker] at h
    split at h
    · rename_i file hw
      obtain ⟨pre, post, hl, hset⟩ := exists_split_of_getElem? hw
      split at h <;> simp only [Option.some.injEq] at h <;> subst h <;>
        simp only [measure, hset, hp] <;>
        rw [hl, sum_measure_split, sum_measure_split] <;>
        simp only [measureWorker] <;> omega
    · rename_i hw
      obtain ⟨pre, post, hl, hset⟩ := exists_split_of_getElem? hw
      split at h
      · split at h
        · simp only [Option.some.injEq] at h
          subst h
          simp only [measure, hp]
          simp
        · simp only [Option.some.injEq] at h
          subst h
          simp only [measure, hset, hp]
          rw [hl, sum_measure_split, sum_measure_split]
          simp only [measureWorker]
          omega
      · simp at h
    · split at h
      · simp only [Option.some.injEq] at h
        subst h
        simp only [measure, hp]
        simp
      · simp at h
    · simp at h
  | walker =>
    simp only [stepAction, stepWalker] at h
    split at h
    · rename_i hwalk
      simp only [Option.some.injEq] at h
      subst h
      simp only [measure, hp, hwalk, measureWalker]
      omega
    · rename_i e rest hwalk
      split at h
      · simp only [Option.some.injEq] at h
        subst h
        simp only [measure, hp, hwalk, measureWalker, List.length_cons]
        omega
      · split at h <;> simp only [Option.some.injEq] at h <;> subst h <;>
          simp only [measure, hp, hwalk, measureWalker, List.length_cons] <;> omega
    · rename_i err hwalk
      simp only [Option.some.injEq] at h
      subst h
      simp only [measure, hp, hwalk, measureWalker]
      omega
    · simp at h
  | closer =>
    simp only [stepAction, stepCloser] at h
    split at h
    · rename_i hc
      split at h
      · simp only [Option.some.injEq] at h
        subst h
        simp only [measure, hp, hc, measureCloser]
        omega
      · simp at h
    · rename_i hc
      simp only [Option.some.injEq] at h
      subst h
      simp only [measure, hp, hc, measureCloser]
      omega
    · simp at h

theorem workers_cases (l : List WorkerPc) :
    (∃ (i : Nat) (r : fileInfo), l[i]? = some (WorkerPc.sending r)) ∨
    (∃ (i : Nat) (f : String), l[i]? = some (WorkerPc.hashing f)) ∨
    (∃ i : Nat, l[i]? = some WorkerPc.receiving) ∨ (∀ w ∈ l, w = WorkerPc.returned) := by
  induction l with
  | nil => simp
  | cons w rest ih =>
    cases w with
    | sending r => exact Or.inl ⟨0, r, by simp⟩
    | hashing f => exact Or.inr (Or.inl ⟨0, f, by simp⟩)
    | receiving =>
      rcases ih with ⟨i, r, h⟩ | ⟨i, f, h⟩ | h
      · exact Or.inl ⟨i + 1, r, by simpa using h⟩
      · exact Or.inr (Or.inl ⟨i + 1, f, by simpa using h⟩)
      · exact Or.inr (Or.inr (Or.inl ⟨0, by simp⟩))
    | returned =>
      rcases ih with ⟨i, r, h⟩ | ⟨i, f, h⟩ | ⟨i, h⟩ | h
      · exact Or.inl ⟨i + 1, r, by simpa using h⟩
      · exact Or.inr (Or.inl ⟨i + 1, f, by simpa using h⟩)
      · exact Or.inr (Or.inr (Or.inl ⟨i + 1, by simpa using h⟩))
      · refine Or.inr (Or.inr (Or.inr ?_))
        intro w hw
        rcases List.mem_cons.mp hw with rfl | hmem
        · rfl
        · exact h w hmem

theorem activeWorkers_eq_zero_of_all {l : List WorkerPc}
    (h : ∀ w ∈ l, w = WorkerPc.returned) : activeWorkers l = 0 := by
  induction l with
  | nil => rfl
  | cons w rest ih =>
    have hw := h w (List.mem_cons_self _ _)
    subst hw
    simp only [activeWorkers]
    exact ih (fun w hw => h w (List.mem_cons_of_mem _ hw))

theorem step_of_stepAction {cfg : Config} {s : State} {a : Action}
    (hp : s.panicked = false) (h : (stepAction cfg s a).isSome = true) :
    ∃ a s1, step cfg s a = some s1 := by
  obtain ⟨s1, hs1⟩ := Option.isSome_iff_exists.mp h
  exact ⟨a, s1, by simp [step, hp, hs1]⟩

/-- No deadlock: with at least one worker, a state that satisfies the
invariant and in which the call is not over has a next step. -/
theorem progress {cfg : Config} {s : State} (hinv : Inv cfg s) (hn : 0 < cfg.numWorkers)
    (hf : s.finished = false) : ∃ a s1, step cfg s a = some s1 := by
  have hp := hinv.no_panic
  have hmain := hinv.main_pc
  unfold mainInv at hmain
  cases hm : s.main with
  | opening =>
    cases ho : openFile cfg.output with
    | error err => exact step_of_stepAction (a := .main) hp (by simp [stepAction, stepMain, hm, ho])
    | ok content => exact step_of_stepAction (a := .main) hp (by simp [stepAction, stepMain, hm, ho])
  | spawningWorkers i =>
    by_cases hi : i < cfg.numWorkers
    · exact step_of_stepAction (a := .main) hp (by simp [stepAction, stepMain, hm, hi])
    · exact step_of_stepAction (a := .main) hp (by simp [stepAction, stepMain, hm, hi])
  | spawningWalker => exact step_of_stepAction (a := .main) hp (by simp [stepAction, stepMain, hm])
  | spawningCloser => exact step_of_stepAction (a := .main) hp (by simp [stepAction, stepMain, hm])
  | returned => simp [State.finished, hm] at hf
  | fatal err => simp [State.finished, hm] at hf
  | collecting =>
    simp only [hm] at hmain
    obtain ⟨hlen, hwalkSome, hcloserSome⟩ := hmain
    by_cases hrc : s.resultsClosed = true
    · exact step_of_stepAction (a := .mainFinish s.fileHashes) hp
        (by simp [stepAction, stepMainFinish, hm, hrc])
    · have hne : s.workers ≠ [] := by
        intro h
        rw [h] at hlen
        simp at hlen
        omega
      obtain ⟨w0, hw0⟩ := List.exists_mem_of_ne_nil _ hne
      rcases workers_cases s.workers with ⟨i, r, hw⟩ | ⟨i, f, hw⟩ | hrest
      · exact step_of_stepAction (a := .mainReceive i) hp
          (by simp [stepAction, stepMainReceive, hm, hw, hrc])
      · cases hstep : workerStep cfg.fs f with
        | mk o lg =>
          cases o with
          | none =>
            exact step_of_stepAction (a := .worker i) hp
              (by simp [stepAction, stepWorker, hw, hstep])
          | some r =>
            exact step_of_stepAction (a := .worker i) hp
              (by simp [stepAction, stepWorker, hw, hstep])
      · obtain ⟨wk, hwk⟩ := Option.isSome_iff_exists.mp hwalkSome
        cases wk with
        | walking rest =>
          cases rest with
          | nil =>
            exact step_of_stepAction (a := .walker) hp (by simp [stepAction, stepWalker, hwk])
          | cons e rest =>
            cases herr : e.err with
            | some err =>
              exact step_of_stepAction (a := .walker) hp
                (by simp [stepAction, stepWalker, hwk, herr])
            | none =>
              by_cases hd : e.isDir = true
              · exact step_of_stepAction (a := .walker) hp
                  (by simp [stepAction, stepWalker, hwk, herr, hd])
              · exact step_of_stepAction (a := .walker) hp
                  (by simp [stepAction, stepWalker, hwk, herr, hd])
        | walkReturned err =>
          exact step_of_stepAction (a := .walker) hp (by simp [stepAction, stepWalker, hwk])
        | sending p rest =>
          rcases hrest with ⟨i, hw⟩ | hall
          · exact step_of_stepAction (a := .workerReceive i) hp
              (by simp [stepAction, stepWorkerReceive, hwk, hw])
          · exfalso
            have hfc := hinv.worker_returned (hall w0 hw0 ▸ hw0)
            have := hinv.files_closed.mp hfc
            rw [hwk] at this
            simp at this
        | returned =>
          have hfc := hinv.files_closed.mpr hwk
          rcases hrest with ⟨i, hw⟩ | hall
          · by_cases hwg : s.wg = 0
            · exact step_of_stepAction (a := .worker i) hp
                (by simp [stepAction, stepWorker, hw, hfc, hwg])
            · exact step_of_stepAction (a := .worker i) hp
                (by simp [stepAction, stepWorker, hw, hfc, hwg])
          · have hwg : s.wg = 0 := by
              rw [hinv.wg_eq]
              exact activeWorkers_eq_zero_of_all hall
            obtain ⟨c, hc⟩ := Option.isSome_iff_exists.mp hcloserSome
            cases c with
            | waiting =>
              exact step_of_stepAction (a := .closer) hp
                (by simp [stepAction, stepCloser, hc, hwg])
            | closing =>
              exact step_of_stepAction (a := .closer) hp
                (by simp [stepAction, stepCloser, hc])
            | returned =>
              exact absurd (hinv.results_closed.mpr hc) hrc

theorem run_append (cfg : Config) (s : State) (l1 l2 : List Action) :
    run cfg s (l1 ++ l2) = (run cfg s l1).bind fun s1 => run cfg s1 l2 := by
  induction l1 generalizing s with
  | nil => rfl
  | cons a rest ih =>
    simp only [List.cons_append, run]
    cases step cfg s a with
    | none => rfl
    | some s1 => exact ih s1

/-- Every executable schedule is shorter than the bound of its first state. -/
theorem run_length_le {cfg : Config} {s s1 : State} {schedule : List Action}
    (hinv : Inv cfg s) (h : run cfg s schedule = some s1) :
    schedule.length + measure cfg s1 ≤ measure cfg s := by
  induction schedule generalizing s with
  | nil =>
    simp only [run, Option.some.injEq] at h
    subst h
    simp
  | cons a rest ih =>
    simp only [run] at h
    split at h
    · simp at h
    · rename_i s2 hs
      have h1 := measure_step hinv hs
      have h2 := ih (inv_step hinv hs) h
      simp only [List.length_cons]
      omega

/-- From every state that satisfies the invariant, with at least one worker,
some schedule runs the call to its end. -/
theorem eventually_finished {cfg : Config} (hn : 0 < cfg.numWorkers) (n : Nat) :
    ∀ s, Inv cfg s → measure cfg s ≤ n →
      ∃ schedule s1, run cfg s schedule = some s1 ∧ s1.finished = true := by
  induction n with
  | zero =>
    intro s hinv hle
    by_cases hf : s.finished = true
    · exact ⟨[], s, rfl, hf⟩
    · obtain ⟨a, s1, hs⟩ := progress hinv hn (by simpa using hf)
      have := measure_step hinv hs
      omega
  | succ n ih =>
    intro s hinv hle
    by_cases hf : s.finished = true
    · exact ⟨[], s, rfl, hf⟩
    · obtain ⟨a, s1, hs⟩ := progress hinv hn (by simpa using hf)
      have hlt := measure_step hinv hs
      obtain ⟨schedule, s2, hrun, hfin⟩ := ih s1 (inv_step hinv hs) (by omega)
      exact ⟨a :: schedule, s2, by simp [run, hs, hrun], hfin⟩

theorem reachable_run {cfg : Config} {s s1 : State} {schedule : List Action}
    (hr : Reachable cfg s) (h : run cfg s schedule = some s1) : Reachable cfg s1 := by
  obtain ⟨sch0, h0⟩ := hr
  refine ⟨sch0 ++ schedule, ?_⟩
  unfold CheckDuplicateFiles at h0 ⊢
  rw [run_append, h0]
  exact h

/-- With an output file that can be opened, a call that is over has returned. -/
theorem returned_of_finished {cfg : Config} {s : State} {content : String}
    (hr : Reachable cfg s) (ho : openFile cfg.output = .ok content)
    (hf : s.finished = true) : s.main = .returned := by
  obtain ⟨schedule, hs⟩ := hr
  have hout := outInv_run (outInv_init cfg) hs
  unfold outInv at hout
  cases hm : s.main with
  | returned => rfl
  | fatal err =>
    simp only [hm] at hout
    rw [ho] at hout
    simp at hout
  | opening => simp [State.finished, hm] at hf
  | spawningWorkers i => simp [State.finished, hm] at hf
  | spawningWalker => simp [State.finished, hm] at hf
  | spawningCloser => simp [State.finished, hm] at hf
  | collecting => simp [State.finished, hm] at hf

/-- From every reachable state, with at least one worker and an output file
that can be opened, the call can be run to its return, and no schedule runs
for more steps than the bound. -/
theorem reachable_returns {cfg : Config} {s : State} {content : String}
    (hr : Reachable cfg s) (hn : 0 < cfg.numWorkers)
    (ho : openFile cfg.output = .ok content) :
    (∃ schedule s1, run cfg s schedule = some s1 ∧ s1.main = .returned) ∧
    (∀ schedule s1, run cfg s schedule = some s1 → schedule.length ≤ measure cfg s) := by
  have hinv := inv_of_reachable hr
  constructor
  · obtain ⟨schedule, s1, hrun, hfin⟩ := eventually_finished hn _ s hinv (Nat.le_refl _)
    exact ⟨schedule, s1, hrun, returned_of_finished (reachable_run hr hrun) ho hfin⟩
  · intro schedule s1 hrun
    have := run_length_le hinv hrun
    omega

/-! ## Lemmas on `worker` and `walker` as stream functions -/

theorem workerStep_fst (fs : FileSystem) (file : String) :
    (workerStep fs file).1 =
      match calculateMD5 fs file with
      | .error _ => none
      | .ok hash => some ⟨file, hash⟩ := by
  unfold workerStep
  split <;> rfl

theorem worker_cons_ok {fs : FileSystem} {file hash : String} (rest : List String)
    (h : calculateMD5 fs file = .ok hash) :
    worker fs (file :: rest) = ⟨file, hash⟩ :: worker fs rest := by
  simp [worker, workerStep_fst, h]

theorem worker_cons_error {fs : FileSystem} {file err : String} (rest : List String)
    (h : calculateMD5 fs file = .error err) :
    worker fs (file :: rest) = worker fs rest := by
  simp [worker, workerStep_fst, h]

theorem mem_worker (fs : FileSystem) (files : List String) (r : fileInfo) :
    r ∈ worker fs files ↔ r.path ∈ files ∧ calculateMD5 fs r.path = .ok r.hash := by
  induction files with
  | nil => simp [worker]
  | cons f rest ih =>
    cases hc : calculateMD5 fs f with
    | error err =>
      rw [worker_cons_error rest hc, ih]
      constructor
      · rintro ⟨h1, h2⟩
        exact ⟨List.mem_cons_of_mem _ h1, h2⟩
      · rintro ⟨h1, h2⟩
        rcases List.mem_cons.mp h1 with heq | hmem
        · rw [heq, hc] at h2
          simp at h2
        · exact ⟨hmem, h2⟩
    | ok hash =>
      rw [worker_cons_ok rest hc, List.mem_cons, ih]
      constructor
      · rintro (rfl | ⟨h1, h2⟩)
        · exact ⟨List.mem_cons_self _ _, hc⟩
        · exact ⟨List.mem_cons_of_mem _ h1, h2⟩
      · rintro ⟨h1, h2⟩
        rcases List.mem_cons.mp h1 with heq | hmem
        · left
          rw [heq, hc] at h2
          cases r
          simp only [fileInfo.mk.injEq]
          simp only at heq h2
          exact ⟨heq, (Except.ok.inj h2).symm⟩
        · exact Or.inr ⟨hmem, h2⟩

theorem count_worker (fs : FileSystem) (files : List String) (r : fileInfo)
    (h : calculateMD5 fs r.path = .ok r.hash) :
    (worker fs files).count r = files.count r.path := by
  induction files with
  | nil => simp [worker]
  | cons f rest ih =>
    by_cases hf : f = r.path
    · subst hf
      rw [worker_cons_ok rest h]
      simp [ih]
    · cases hc : calculateMD5 fs f with
      | error err =>
        rw [worker_cons_error rest hc, ih, List.count_cons_of_ne (fun h => hf h.symm)]
      | ok hash =>
        rw [worker_cons_ok rest hc, List.count_cons_of_ne, ih,
          List.count_cons_of_ne (fun h => hf h.symm)]
        intro heq
        exact hf (by rw [heq])

theorem walker_fst_eq (walk : List WalkEntry) :
    (walker walk).1
      = ((walk.takeWhile fun e => e.err.isNone).filter fun e => !e.isDir).map
          WalkEntry.path := by
  induction walk with
  | nil => rfl
  | cons e rest ih =>
    cases herr : e.err with
    | some err => simp [walker_cons_err rest herr, List.takeWhile_cons, herr]
    | none =>
      by_cases hd : e.isDir = true
      · rw [walker_cons_dir rest herr hd, ih]
        simp [List.takeWhile_cons, herr, hd]
      · simp only [Bool.not_eq_true] at hd
        rw [walker_cons_file rest herr hd, ih]
        simp [List.takeWhile_cons, herr, hd]

theorem walker_snd_eq (walk : List WalkEntry) :
    (walker walk).2 = (walk.find? fun e => e.err.isSome).bind WalkEntry.err := by
  induction walk with
  | nil => rfl
  | cons e rest ih =>
    cases herr : e.err with
    | some err => simp [walker_cons_err rest herr, List.find?_cons, herr]
    | none =>
      by_cases hd : e.isDir = true
      · rw [walker_cons_dir rest herr hd, ih]
        simp [List.find?_cons, herr]
      · simp only [Bool.not_eq_true] at hd
        rw [walker_cons_file rest herr hd, ih]
        simp [List.find?_cons, herr]

/-! ## Grouping by digest -/

theorem mem_pathsWithDigest (rs : List fileInfo) (d p : String) :
    p ∈ pathsWithDigest rs d ↔ (⟨p, d⟩ : fileInfo) ∈ rs := by
  unfold pathsWithDigest
  simp only [List.mem_map, List.mem_filter, decide_eq_true_eq]
  constructor
  · rintro ⟨r, ⟨hr, rfl⟩, rfl⟩
    exact hr
  · intro h
    exact ⟨⟨p, d⟩, ⟨h, rfl⟩, rfl⟩

theorem sameGroup_collectResults (rs : List fileInfo) (p q : String) :
    sameGroup (collectResults rs) p q = true ↔
      ∃ d, (⟨p, d⟩ : fileInfo) ∈ rs ∧ (⟨q, d⟩ : fileInfo) ∈ rs := by
  unfold sameGroup
  simp only [List.any_eq_true, Bool.and_eq_true, decide_eq_true_eq, Prod.exists]
  constructor
  · rintro ⟨d, paths, hmem, hp, hq⟩
    obtain ⟨rfl, _⟩ := (mem_collectResults rs d paths).mp hmem
    exact ⟨d, (mem_pathsWithDigest rs d p).mp hp, (mem_pathsWithDigest rs d q).mp hq⟩
  · rintro ⟨d, hp, hq⟩
    have hp1 := (mem_pathsWithDigest rs d p).mpr hp
    refine ⟨d, pathsWithDigest rs d, ?_, hp1, (mem_pathsWithDigest rs d q).mpr hq⟩
    exact (mem_collectResults rs d _).mpr ⟨rfl, List.ne_nil_of_mem hp1⟩

set_option maxRecDepth 100000 in
theorem demoFinalState_reachable : Reachable demoConfig demoFinalState :=
  ⟨demoSchedule, by decide⟩

set_option maxRecDepth 100000 in
theorem abortFinalState_reachable : Reachable abortConfig abortFinalState :=
  ⟨abortSchedule, by decide⟩

/-! ## Test vectors of the digest -/

set_option maxRecDepth 100000 in
/-- The digest agrees with the test suite of RFC 1321 on the empty string,
`a`, `abc` and `message digest`. -/
theorem md5Sum_test_vectors :
    sprintfHex (md5Sum []) = "d41d8cd98f00b204e9800998ecf8427e" ∧
    sprintfHex (md5Sum [0x61]) = "0cc175b9c0f1b6a831c399e269772661" ∧
    sprintfHex (md5Sum [0x61, 0x62, 0x63]) = "900150983cd24fb0d6963f7d28e17f72" ∧
    sprintfHex (md5Sum [0x6d, 0x65, 0x73, 0x73, 0x61, 0x67, 0x65, 0x20, 0x64, 0x69,
      0x67, 0x65, 0x73, 0x74]) = "f96b697d7cb7938d525a2f31aaf161d0" := by
  decide

/-! ## The state of a call that has returned -/

/-- A call that has returned leaves the file and the count of `report` on some
visiting order of `fileHashes`, which is the aggregate of the records
received. -/
theorem returned_report {cfg : Config} {s : State} (hr : Reachable cfg s)
    (hm : s.main = .returned) :
    s.fileHashes = collectResults s.received ∧
    ∃ content order, openFile cfg.output = .ok content ∧ order.Perm s.fileHashes ∧
      s.file = (report content order).file ∧
      s.duplicateCount = (report content order).duplicateCount := by
  have hinv := inv_of_reachable hr
  obtain ⟨schedule, hs⟩ := hr
  have hout := outInv_run (outInv_init cfg) hs
  unfold outInv at hout
  simp only [hm] at hout
  exact ⟨hinv.hashes, hout⟩

/-! ## The bytes each entry adds to the output file -/

theorem renderGroups_append (g1 g2 : List (List String)) :
    renderGroups (g1 ++ g2) = renderGroups g1 ++ renderGroups g2 := by
  unfold renderGroups
  induction g1 with
  | nil => simp
  | cons g rest ih =>
    simp only [List.cons_append, List.foldr_cons, ih, String.append_assoc]

theorem renderGroups_duplicateGroups_cons (e : String × List String)
    (rest : List (String × List String)) :
    renderGroups ((duplicateGroups (e :: rest)).map Prod.snd)
      = groupContribution e ++ renderGroups ((duplicateGroups rest).map Prod.snd) := by
  unfold groupContribution
  by_cases h : 1 < e.2.length
  · simp [duplicateGroups, h, renderGroups]
  · simp [duplicateGroups, h]

theorem renderGroups_duplicateGroups_eq (order : List (String × List String)) :
    renderGroups ((duplicateGroups order).map Prod.snd)
      = (order.map groupContribution).foldr (fun b acc => b ++ acc) "" := by
  induction order with
  | nil => simp [duplicateGroups, renderGroups]
  | cons e rest ih =>
    rw [renderGroups_duplicateGroups_cons, ih]
    simp

theorem renderGroup_ne_empty (paths : List String) : renderGroup paths ≠ "" := by
  intro h
  have hlen := congrArg String.length h
  rw [renderGroup_eq, String.length_append] at hlen
  have h1 : "\n".length = 1 := by decide
  have h0 : "".length = 0 := by decide
  omega

/-- The file after the report, split at one entry of the visiting order: what
the entries before it produced, then the bytes of that entry, then the bytes of
the entries after it. -/
theorem report_file_split (content : String) (pre post : List (String × List String))
    (e : String × List String) :
    (report content (pre ++ e :: post)).file
      = (report content pre).file ++ groupContribution e
          ++ renderGroups ((duplicateGroups post).map Prod.snd) := by
  rw [report_eq, report_eq]
  simp only
  have hsplit : duplicateGroups (pre ++ e :: post)
      = duplicateGroups pre ++ duplicateGroups (e :: post) := by
    simp [duplicateGroups]
  rw [hsplit, List.map_append, renderGroups_append, renderGroups_duplicateGroups_cons]
  simp only [String.append_assoc]

/-! ## The claims -/

/-- C1: for every aggregate (a map with distinct keys, visited in any order)
and every digest `h`, the output file after the report is the bytes produced
by the entries visited before the entry of `h`, then the bytes of `h`, then
the bytes of the entries visited after it, where the bytes of `h` are its
rendered group if the list stored under `h` has more than one element and no
byte at all otherwise; so the group of `h` is written to the file (and
announced in the log) if and only if that list has more than one element, a
digest with at most one path can be dropped from the aggregate without
changing the file, and the whole file is the former content followed by the
bytes of the entries in visiting order. -/
theorem C1_group_written_iff_more_than_one (content : String) (m order : HashMap)
    (hm : m.keys.Nodup) (hp : order.Perm m) (h : String) :
    (LogEntry.duplicateFilesFound h ∈ (report content order).log ↔ 1 < (m.get h).length) ∧
    (∀ st, (m.get h).length ≤ 1 → writeGroup st (h, m.get h) = st) ∧
    (∀ st, 1 < (m.get h).length →
      (writeGroup st (h, m.get h)).writer
        = ⟨st.writer.file, st.writer.buf ++ renderGroup (m.get h)⟩) ∧
    (h ∈ m.keys → ∃ pre post, order = pre ++ (h, m.get h) :: post) ∧
    (∀ pre post, order = pre ++ (h, m.get h) :: post →
      (report content order).file
        = (report content pre).file ++ groupContribution (h, m.get h)
            ++ renderGroups ((duplicateGroups post).map Prod.snd)) ∧
    (groupContribution (h, m.get h) ≠ "" ↔ 1 < (m.get h).length) ∧
    (1 < (m.get h).length → groupContribution (h, m.get h) = renderGroup (m.get h)) ∧
    ((m.get h).length ≤ 1 →
      (report content order).file
        = (report content (order.filter fun e => e.1 ≠ h)).file) ∧
    (report content order).file
      = content ++ (order.map groupContribution).foldr (fun b acc => b ++ acc) "" := by
  have ho : order.keys.Nodup := (hp.map Prod.fst).nodup_iff.mpr hm
  refine ⟨?_, fun st hle => writeGroup_of_le st _ hle, fun st hlt => ?_, ?_, ?_, ?_, ?_, ?_, ?_⟩
  · rw [report_eq]
    simp only [List.mem_append, List.mem_singleton, reduceCtorEq, or_false,
      mem_flatMap_groupLog, duplicateGroups, List.mem_filter, decide_eq_true_eq]
    constructor
    · rintro ⟨paths, hmem, hlen⟩
      have := ((HashMap.mem_iff_get ho h paths).mp hmem).2
      rw [HashMap.get_perm hm hp] at this
      rw [this]
      exact hlen
    · intro hlen
      refine ⟨m.get h, ?_, hlen⟩
      apply hp.mem_iff.mpr
      apply (HashMap.mem_iff_get hm h _).mpr
      refine ⟨?_, rfl⟩
      by_contra hk
      rw [HashMap.get_of_not_mem_keys hk] at hlen
      simp at hlen
  · rw [writeGroup_of_lt st _ hlt]
  · intro hk
    have hmem : (h, m.get h) ∈ order :=
      hp.mem_iff.mpr ((HashMap.mem_iff_get hm h _).mpr ⟨hk, rfl⟩)
    exact List.append_of_mem hmem
  · intro pre post hsplit
    rw [hsplit, report_file_split]
  · unfold groupContribution
    by_cases hlen : 1 < (m.get h).length
    · simp only [hlen, if_true, iff_true]
      exact renderGroup_ne_empty _
    · simp [hlen]
  · intro hlen
    simp [groupContribution, hlen]
  · intro hle
    rw [report_eq, report_eq]
    have hfilter : duplicateGroups (order.filter fun e => e.1 ≠ h) = duplicateGroups order := by
      unfold duplicateGroups
      rw [List.filter_filter]
      apply List.filter_congr
      intro e he
      obtain ⟨k, v⟩ := e
      by_cases hk : k = h
      · subst hk
        have hv := ((HashMap.mem_iff_get ho k v).mp he).2
        rw [HashMap.get_perm hm hp] at hv
        have : ¬ 1 < v.length := by rw [← hv]; omega
        simp [this]
      · simp [hk]
    rw [hfilter]
  · rw [report_eq, renderGroups_duplicateGroups_eq]

theorem C1_witness :
    (LogEntry.duplicateFilesFound "h1" ∈
        (report "" [("h2", ["c"]), ("h1", ["a", "b"])]).log ↔
      1 < (HashMap.get [("h1", ["a", "b"]), ("h2", ["c"])] "h1").length) ∧
    (LogEntry.duplicateFilesFound "h2" ∈
        (report "" [("h2", ["c"]), ("h1", ["a", "b"])]).log ↔
      1 < (HashMap.get [("h1", ["a", "b"]), ("h2", ["c"])] "h2").length) ∧
    (report "old\n" [("h2", ["c"]), ("h1", ["a", "b"])]).file
      = (report "old\n" [("h2", ["c"])]).file
          ++ groupContribution ("h1", HashMap.get [("h1", ["a", "b"]), ("h2", ["c"])] "h1")
          ++ renderGroups ((duplicateGroups []).map Prod.snd) ∧
    (report "old\n" [("h2", ["c"]), ("h1", ["a", "b"])]).file = "old\na\nb\n\n" ∧
    (report "old\n" [("h2", ["c"])]).file = "old\n" :=
  ⟨(C1_group_written_iff_more_than_one "" [("h1", ["a", "b"]), ("h2", ["c"])]
      [("h2", ["c"]), ("h1", ["a", "b"])] (by decide) (by decide) "h1").1,
   (C1_group_written_iff_more_than_one "" [("h1", ["a", "b"]), ("h2", ["c"])]
      [("h2", ["c"]), ("h1", ["a", "b"])] (by decide) (by decide) "h2").1,
   (C1_group_written_iff_more_than_one "old\n" [("h1", ["a", "b"]), ("h2", ["c"])]
      [("h2", ["c"]), ("h1", ["a", "b"])] (by decide) (by decide) "h1").2.2.2.2.1
      [("h2", ["c"])] [] rfl,
   by decide, by decide⟩

/-- C2: for every finite result stream, the collecting loop builds a map with
pairwise distinct keys in which each digest reads exactly the paths of the
records carrying it, in arrival order; the entries are exactly these non-empty
lists, and the entries together hold as many paths as records arrived. -/
theorem C2_collect_groups_in_arrival_order (results : List fileInfo) :
    (∀ d, (collectResults results).get d
        = (results.filter fun r => r.hash = d).map fileInfo.path) ∧
    (collectResults results).keys.Nodup ∧
    (∀ d paths, (d, paths) ∈ collectResults results ↔
        paths = (results.filter fun r => r.hash = d).map fileInfo.path ∧ paths ≠ []) ∧
    ((collectResults results).map fun e => e.2.length).sum = results.length := by
  refine ⟨fun d => collectResults_get results d, collectResults_keys_nodup results,
    fun d paths => mem_collectResults results d paths, ?_⟩
  unfold collectResults
  rw [sum_length_foldl_collect]
  simp

set_option maxRecDepth 100000 in
/-- C3 fails as stated: two files of different content, both hashed
successfully, that the aggregate puts in one group. -/
theorem C3_counterexample :
    collisionFS "root/a.bin" = .readable collisionA ∧
    collisionFS "root/b.bin" = .readable collisionB ∧
    calculateMD5 collisionFS "root/a.bin" = .ok "79054025255fb1a26e4bc422aef54eb4" ∧
    calculateMD5 collisionFS "root/b.bin" = .ok "79054025255fb1a26e4bc422aef54eb4" ∧
    collisionA ≠ collisionB ∧
    sameGroup (collectResults (worker collisionFS ["root/a.bin", "root/b.bin"]))
        "root/a.bin" "root/b.bin" = true ∧
    ¬ (sameGroup (collectResults (worker collisionFS ["root/a.bin", "root/b.bin"]))
          "root/a.bin" "root/b.bin" = true ↔ collisionA = collisionB) := by
  decide

/-- C3 (amended): two files of the intake that are hashed successfully stand
in one group of the aggregate, whatever the arrival order, if and only if
`calculateMD5` returns the same digest for both; files of identical content
always do. -/
theorem C3_same_group_iff_same_digest (fs : FileSystem) (files : List String)
    (rs : List fileInfo) (p q dp dq : String) (hpf : p ∈ files) (hqf : q ∈ files)
    (hp : calculateMD5 fs p = .ok dp) (hq : calculateMD5 fs q = .ok dq)
    (hrs : rs.Perm (worker fs files)) :
    (sameGroup (collectResults rs) p q = true ↔ dp = dq) ∧
    (∀ c, fs p = .readable c → fs q = .readable c →
      sameGroup (collectResults rs) p q = true) := by
  have hiff : sameGroup (collectResults rs) p q = true ↔ dp = dq := by
    rw [sameGroup_collectResults]
    constructor
    · rintro ⟨d, h1, h2⟩
      have h1w := ((mem_worker fs files _).mp (hrs.mem_iff.mp h1)).2
      have h2w := ((mem_worker fs files _).mp (hrs.mem_iff.mp h2)).2
      simp only at h1w h2w
      rw [hp] at h1w
      rw [hq] at h2w
      exact (Except.ok.inj h1w).trans (Except.ok.inj h2w).symm
    · rintro rfl
      exact ⟨dp, hrs.mem_iff.mpr ((mem_worker fs files _).mpr ⟨hpf, hp⟩),
        hrs.mem_iff.mpr ((mem_worker fs files _).mpr ⟨hqf, hq⟩)⟩
  refine ⟨hiff, ?_⟩
  intro c hpc hqc
  apply hiff.mpr
  simp only [calculateMD5, hpc, hqc] at hp hq
  exact (Except.ok.inj hp).symm.trans (Except.ok.inj hq)

set_option maxRecDepth 100000 in
theorem C3_witness :
    sameGroup (collectResults (worker scenarioFS (walker scenarioWalk).1))
        "root/a.txt" "root/c.txt" = true ↔
      "5d41402abc4b2a76b9719d911017c592" = "7d793037a0760186574b0282f2f435e7" :=
  (C3_same_group_iff_same_digest scenarioFS (walker scenarioWalk).1
    (worker scenarioFS (walker scenarioWalk).1) "root/a.txt" "root/c.txt"
    "5d41402abc4b2a76b9719d911017c592" "7d793037a0760186574b0282f2f435e7"
    (by decide) (by decide) (by decide) (by decide) (List.Perm.refl _)).1

/-- C4: the stream function `worker` emits the record of a path and its digest
once for every delivery of a path whose hashing succeeds and emits nothing
else; in every call of `CheckDuplicateFiles` that has returned (with at least
one worker) the records received by the collecting loop are, in some order,
exactly these records for the paths sent on the intake, and without traversal
error the paths sent are those of all non-directory entries. -/
theorem C4_exactly_one_record_per_hashed_path (cfg : Config) (s : State)
    (hr : Reachable cfg s) (hn : 0 < cfg.numWorkers) (hm : s.main = .returned) :
    (∀ files r, calculateMD5 cfg.fs r.path = .ok r.hash →
        (worker cfg.fs files).count r = files.count r.path) ∧
    (∀ files r, calculateMD5 cfg.fs r.path ≠ .ok r.hash → r ∉ worker cfg.fs files) ∧
    (∀ r, calculateMD5 cfg.fs r.path = .ok r.hash →
        s.received.count r = s.sent.count r.path) ∧
    (∀ r, calculateMD5 cfg.fs r.path ≠ .ok r.hash → r ∉ s.received) ∧
    ((walker cfg.walk).2 = none →
        s.sent = (cfg.walk.filter fun e => !e.isDir).map WalkEntry.path) := by
  obtain ⟨hsent, hrecv, _, _⟩ := returned_outcome hr hn hm
  refine ⟨fun files r h => count_worker cfg.fs files r h,
    fun files r h hmem => h ((mem_worker cfg.fs files r).mp hmem).2, ?_, ?_, ?_⟩
  · intro r h
    rw [hrecv.count_eq, hsent]
    exact count_worker cfg.fs _ r h
  · intro r h hmem
    exact h ((mem_worker cfg.fs _ r).mp (hrecv.mem_iff.mp hmem)).2
  · intro hnone
    rw [hsent, walker_fst_eq]
    rw [walker_snd_eq] at hnone
    have hall : ∀ e ∈ cfg.walk, (fun e : WalkEntry => e.err.isNone) e = true := by
      intro e he
      cases herr : e.err with
      | none => simp [herr]
      | some err =>
        exfalso
        have hfind : (cfg.walk.find? fun e => e.err.isSome).isSome = true := by
          rw [List.find?_isSome]
          exact ⟨e, he, by simp [herr]⟩
        obtain ⟨e1, he1⟩ := Option.isSome_iff_exists.mp hfind
        have hsome := List.find?_some he1
        rw [he1] at hnone
        simp only [Option.some_bind] at hnone
        rw [hnone] at hsome
        simp at hsome
    rw [List.takeWhile_eq_self_iff.mpr hall]

set_option maxRecDepth 100000 in
theorem C4_witness :
    demoFinalState.received.count ⟨"root/a.txt", "5d41402abc4b2a76b9719d911017c592"⟩
      = demoFinalState.sent.count "root/a.txt" :=
  (C4_exactly_one_record_per_hashed_path demoConfig demoFinalState
    demoFinalState_reachable (by decide) (by decide)).2.2.1
    ⟨"root/a.txt", "5d41402abc4b2a76b9719d911017c592"⟩ (by decide)

/-- C5: when hashing path `p` fails, the worker logs the error and goes back
to receive the next path (no return, no panic), so `worker` emits for a list
what it emits for the list with `p` removed; hence the reports for both lists
are equal under equal orders, and the duplicate groups are the same sets under
any arrival and visiting orders. The scan is not aborted: from every reachable
state the call can still be run to its return. -/
theorem C5_hash_failure_is_skipped (cfg : Config) (p err : String)
    (hfail : calculateMD5 cfg.fs p = .error err) (files : List String) :
    (∀ s i, s.workers[i]? = some (WorkerPc.hashing p) →
        stepWorker cfg s i = some { s with workers := s.workers.set i WorkerPc.receiving,
                                            log := s.log ++ [LogEntry.hashError p err] }) ∧
    workerLog cfg.fs [p] = [LogEntry.hashError p err] ∧
    (∀ pre post, worker cfg.fs (pre ++ p :: post) = worker cfg.fs (pre ++ post)) ∧
    worker cfg.fs files = worker cfg.fs (files.erase p) ∧
    worker cfg.fs files = worker cfg.fs (files.filter fun f => f ≠ p) ∧
    (∀ content,
        report content (collectResults (worker cfg.fs files))
          = report content (collectResults (worker cfg.fs (files.filter fun f => f ≠ p)))) ∧
    (∀ rs1 rs2 order1 order2, rs1.Perm (worker cfg.fs files) →
        rs2.Perm (worker cfg.fs (files.filter fun f => f ≠ p)) →
        order1.Perm (collectResults rs1) → order2.Perm (collectResults rs2) →
        groupSets order1 = groupSets order2) ∧
    (∀ s content, Reachable cfg s → 0 < cfg.numWorkers →
        openFile cfg.output = .ok content →
        ∃ schedule s1, run cfg s schedule = some s1 ∧ s1.main = .returned) := by
  have hskip : ∀ pre post, worker cfg.fs (pre ++ p :: post) = worker cfg.fs (pre ++ post) := by
    intro pre post
    rw [worker_append, worker_append, worker_cons_error post hfail]
  have hfilter : ∀ l : List String,
      worker cfg.fs l = worker cfg.fs (l.filter fun f => f ≠ p) := by
    intro l
    induction l with
    | nil => rfl
    | cons f rest ih =>
      by_cases hf : f = p
      · subst hf
        rw [worker_cons_error rest hfail, ih]
        simp
      · rw [List.filter_cons_of_pos (by simpa using hf), worker_cons, ih, ← worker_cons]
  have herase : ∀ l : List String, worker cfg.fs l = worker cfg.fs (l.erase p) := by
    intro l
    induction l with
    | nil => rfl
    | cons f rest ih =>
      by_cases hf : f = p
      · subst hf
        rw [worker_cons_error rest hfail]
        simp
      · rw [List.erase_cons_tail (by simpa using hf), worker_cons, ih, ← worker_cons]
  have hstep : workerStep cfg.fs p = (none, [LogEntry.hashError p err]) := by
    simp [workerStep, hfail]
  refine ⟨?_, ?_, hskip, herase files, hfilter files, ?_, ?_, ?_⟩
  · intro s i hw
    simp [stepWorker, hw, hstep]
  · simp [workerLog, hstep]
  · intro content
    rw [← hfilter files]
  · intro rs1 rs2 order1 order2 h1 h2 ho1 ho2
    rw [← hfilter files] at h2
    exact groupSets_perm (h1.trans h2.symm) ho1 ho2
  · intro s content hr hn ho
    exact (reachable_returns hr hn ho).1

set_option maxRecDepth 100000 in
theorem C5_witness :
    worker demoConfig.fs ["root/a.txt", "root/x.txt", "root/b.txt"]
      = worker demoConfig.fs (["root/a.txt", "root/x.txt", "root/b.txt"].erase "root/x.txt") :=
  (C5_hash_failure_is_skipped demoConfig "root/x.txt" "permission denied" (by decide)
    ["root/a.txt", "root/x.txt", "root/b.txt"]).2.2.2.1

/-- C6: for every content of the output file and every aggregate visited in
any order, the file afterwards holds the former content followed by the
rendered duplicate groups (each path and a newline, then an empty line) and
nothing else; without duplicate groups, and in particular for an empty result
stream, the content is unchanged. Opening keeps the content of an existing
file and starts an absent one empty, and every call that has returned leaves
the opened content followed by the rendered duplicate groups of `fileHashes`
in some visiting order. -/
theorem C6_output_is_appended_groups (content : String)
    (order : List (String × List String)) :
    (report content order).file
        = content ++ renderGroups ((duplicateGroups order).map Prod.snd) ∧
    (duplicateGroups order = [] → (report content order).file = content) ∧
    (report content (collectResults [])).file = content ∧
    openFile (.existing content) = .ok content ∧ openFile .absent = .ok "" ∧
    (∀ cfg s, Reachable cfg s → s.main = MainPc.returned →
      ∃ opened order1, openFile cfg.output = .ok opened ∧ order1.Perm s.fileHashes ∧
        s.file = opened ++ renderGroups ((duplicateGroups order1).map Prod.snd)) := by
  refine ⟨by rw [report_eq], fun h => ?_, ?_, rfl, rfl, ?_⟩
  · rw [report_eq, h]
    simp [renderGroups]
  · rw [report_eq]
    simp [collectResults, duplicateGroups, renderGroups]
  · intro cfg s hr hm
    obtain ⟨_, opened, order1, h1, h2, h3, _⟩ := returned_report hr hm
    exact ⟨opened, order1, h1, h2, by rw [h3, report_eq]⟩

set_option maxRecDepth 100000 in
theorem C6_witness :
    Reachable demoConfig demoFinalState ∧ demoFinalState.main = MainPc.returned ∧
    demoFinalState.file = "old\n" ++ "root/a.txt\nroot/b.txt\n\n" ∧
    ∃ opened order1, openFile demoConfig.output = .ok opened ∧
      order1.Perm demoFinalState.fileHashes ∧
      demoFinalState.file
        = opened ++ renderGroups ((duplicateGroups order1).map Prod.snd) :=
  ⟨demoFinalState_reachable, by decide, by decide,
    (C6_output_is_appended_groups "" []).2.2.2.2.2 demoConfig demoFinalState
      demoFinalState_reachable (by decide)⟩

/-- C7: for two result streams that are permutations of each other, and any
visiting orders of their aggregates, the duplicate groups are the same as a
set of sets of paths; more precisely the groups agree digest by digest with
the same members, up to group order and member order. -/
theorem C7_groups_independent_of_arrival_order (rs1 rs2 : List fileInfo)
    (order1 order2 : HashMap) (h : rs1.Perm rs2)
    (h1 : order1.Perm (collectResults rs1)) (h2 : order2.Perm (collectResults rs2)) :
    groupSets order1 = groupSets order2 ∧
    (unorderedGroups (duplicateGroups order1)).Perm
      (unorderedGroups (duplicateGroups order2)) :=
  ⟨groupSets_perm h h1 h2, unorderedGroups_duplicateGroups_perm h h1 h2⟩

theorem C7_witness :
    List.Perm [(⟨"a", "h"⟩ : fileInfo), ⟨"b", "h"⟩, ⟨"c", "k"⟩]
      [⟨"c", "k"⟩, ⟨"b", "h"⟩, ⟨"a", "h"⟩] ∧
    groupSets (collectResults [⟨"a", "h"⟩, ⟨"b", "h"⟩, ⟨"c", "k"⟩])
      = groupSets (collectResults [⟨"c", "k"⟩, ⟨"b", "h"⟩, ⟨"a", "h"⟩]) :=
  ⟨by decide,
   (C7_groups_independent_of_arrival_order [⟨"a", "h"⟩, ⟨"b", "h"⟩, ⟨"c", "k"⟩]
      [⟨"c", "k"⟩, ⟨"b", "h"⟩, ⟨"a", "h"⟩] _ _ (by decide) (List.Perm.refl _)
      (List.Perm.refl _)).1⟩

/-- C8: for every aggregate (distinct keys, visited in any order) the count
held at the end of `CheckDuplicateFiles`, which is the count logged last,
equals the number of digests whose list has more than one element, which is
the number of groups written; so it does in every call that has returned. For
the tree with `a.txt` and `b.txt` holding `hello` and `c.txt` holding `world`
it is 1 whatever the arrival and visiting orders; for an empty tree it is 0. -/
theorem C8_duplicate_count (content : String) (m order : HashMap)
    (hm : m.keys.Nodup) (hp : order.Perm m) :
    (report content order).duplicateCount
        = (m.keys.filter fun d => 1 < (m.get d).length).length ∧
    (report content order).duplicateCount = (duplicateGroups order).length ∧
    (report content order).log.getLast?
        = some (LogEntry.duplicatesFound (report content order).duplicateCount) ∧
    (∀ cfg s, Reachable cfg s → s.main = MainPc.returned →
        s.duplicateCount
          = (s.fileHashes.keys.filter fun d => 1 < (s.fileHashes.get d).length).length) ∧
    (∀ rs order1, rs.Perm (worker scenarioFS (walker scenarioWalk).1) →
        order1.Perm (collectResults rs) → (report content order1).duplicateCount = 1) ∧
    (∀ fs rs order1, rs.Perm (worker fs (walker emptyWalk).1) →
        order1.Perm (collectResults rs) → (report content order1).duplicateCount = 0) := by
  have hcount : ∀ (c : String) (m1 order1 : HashMap), m1.keys.Nodup → order1.Perm m1 →
      (report c order1).duplicateCount
        = (m1.keys.filter fun d => 1 < (m1.get d).length).length := by
    intro c m1 order1 hm1 hp1
    rw [report_eq, ← duplicateGroups_length_keys hm1]
    exact (hp1.filter _).length_eq
  refine ⟨hcount content m order hm hp, ?_, ?_, ?_, ?_, ?_⟩
  · rw [report_eq]
  · rw [report_eq]
    simp
  · intro cfg s hr hmain
    obtain ⟨hh, opened, order1, _, h2, _, h4⟩ := returned_report hr hmain
    rw [h4]
    exact hcount opened s.fileHashes order1 (hh ▸ collectResults_keys_nodup _) h2
  · intro rs order1 hrs ho
    rw [report_eq]
    exact (duplicateGroups_length_perm hrs ho (List.Perm.refl _)).trans scenario_groups
  · intro fs rs order1 hrs ho
    rw [report_eq]
    have h0 : worker fs (walker emptyWalk).1 = [] := rfl
    rw [h0] at hrs
    have hnil : rs = [] := List.Perm.eq_nil hrs
    subst hnil
    have : order1 = [] := List.Perm.eq_nil ho
    subst this
    rfl

set_option maxRecDepth 100000 in
theorem C8_witness :
    (report "" (collectResults (worker scenarioFS (walker scenarioWalk).1))).duplicateCount
      = 1 :=
  (C8_duplicate_count "" (collectResults (worker scenarioFS (walker scenarioWalk).1))
    (collectResults (worker scenarioFS (walker scenarioWalk).1))
    (collectResults_keys_nodup _) (List.Perm.refl _)).2.2.2.2.1 _ _
    (List.Perm.refl _) (List.Perm.refl _)

/-- C9: in every reachable state of `CheckDuplicateFiles`, if `resultsChan` is
closed then all `numWorkers` workers were started and every one has returned;
a worker that has returned implies that `filesChan` is closed, which implies
that the walking goroutine is past `filepath.Walk` and its last send; hence
(there being at least one worker, as `runtime.NumCPU()` is positive) a closed
`resultsChan` implies a closed `filesChan` and a completed walk. No send on a
closed channel and no negative `WaitGroup` counter ever happens. -/
theorem C9_results_closed_only_after_workers_and_walk (cfg : Config) (s : State)
    (hr : Reachable cfg s) :
    (s.resultsClosed = true →
      s.workers.length = cfg.numWorkers ∧ ∀ w ∈ s.workers, w = WorkerPc.returned) ∧
    (WorkerPc.returned ∈ s.workers → s.filesClosed = true) ∧
    (s.filesClosed = true →
      s.walker = some WalkerPc.returned ∧ pendingWalker cfg.walk s.walker = []) ∧
    (0 < cfg.numWorkers → s.resultsClosed = true →
      s.filesClosed = true ∧ s.walker = some WalkerPc.returned) ∧
    s.panicked = false := by
  have hinv := inv_of_reachable hr
  have hclosed : s.resultsClosed = true →
      s.workers.length = cfg.numWorkers ∧ ∀ w ∈ s.workers, w = WorkerPc.returned := by
    intro hrc
    have hc := hinv.results_closed.mp hrc
    have hwg := hinv.closer_done (Or.inr hc)
    rw [hinv.wg_eq] at hwg
    refine ⟨?_, activeWorkers_eq_zero hwg⟩
    have hm := hinv.main_pc
    unfold mainInv at hm
    cases hmain : s.main <;> simp only [hmain] at hm <;> simp_all
  have hfiles : s.filesClosed = true →
      s.walker = some WalkerPc.returned ∧ pendingWalker cfg.walk s.walker = [] := by
    intro hfc
    have hw := hinv.files_closed.mp hfc
    exact ⟨hw, by rw [hw]; rfl⟩
  refine ⟨hclosed, hinv.worker_returned, hfiles, ?_, hinv.no_panic⟩
  intro hn hrc
  obtain ⟨hlen, hall⟩ := hclosed hrc
  have hne : s.workers ≠ [] := by
    intro h
    rw [h] at hlen
    simp at hlen
    omega
  obtain ⟨w, hw⟩ := List.exists_mem_of_ne_nil _ hne
  have hfc := hinv.worker_returned (hall w hw ▸ hw)
  exact ⟨hfc, (hfiles hfc).1⟩

set_option maxRecDepth 100000 in
theorem C9_witness :
    Reachable demoConfig demoClosedState ∧ demoClosedState.resultsClosed = true ∧
    demoClosedState.filesClosed = true ∧
    demoClosedState.walker = some WalkerPc.returned := by
  have h := C9_results_closed_only_after_workers_and_walk demoConfig demoClosedState
    demoClosedState_reachable
  have hc : demoClosedState.resultsClosed = true := by decide
  exact ⟨demoClosedState_reachable, hc, h.2.2.2.1 (by decide) hc⟩

/-- C10: the walking goroutine sends the paths of the non-directory entries
that precede the first entry with a traversal error, in traversal order, and
`filepath.Walk` returns that error: at every moment the paths sent so far are
an initial segment of that list (so no directory and nothing after the error
is sent). When the call has returned (with at least one worker) all of them
were sent, the records received are those of `worker` on the paths sent, and
file and count are those of `report` on their aggregate; and from every
reachable state the call can be run to its return. -/
theorem C10_walk_stops_at_first_error (cfg : Config) (s : State) (hr : Reachable cfg s) :
    (walker cfg.walk).1
        = ((cfg.walk.takeWhile fun e => e.err.isNone).filter fun e => !e.isDir).map
            WalkEntry.path ∧
    (walker cfg.walk).2 = (cfg.walk.find? fun e => e.err.isSome).bind WalkEntry.err ∧
    s.sent <+: (walker cfg.walk).1 ∧
    (0 < cfg.numWorkers → s.main = .returned →
      s.sent = (walker cfg.walk).1 ∧ s.received.Perm (worker cfg.fs s.sent) ∧
      ∃ content order, openFile cfg.output = .ok content ∧
        order.Perm (collectResults s.received) ∧
        s.file = (report content order).file ∧
        s.duplicateCount = (report content order).duplicateCount) ∧
    (0 < cfg.numWorkers → ∀ content, openFile cfg.output = .ok content →
      ∃ schedule s1, run cfg s schedule = some s1 ∧ s1.main = .returned) := by
  refine ⟨walker_fst_eq cfg.walk, walker_snd_eq cfg.walk, ?_, ?_, ?_⟩
  · exact ⟨_, (inv_of_reachable hr).sent_eq⟩
  · intro hn hm
    obtain ⟨hsent, hrecv, _, hout⟩ := returned_outcome hr hn hm
    exact ⟨hsent, hsent ▸ hrecv, hout⟩
  · intro hn content ho
    exact (reachable_returns hr hn ho).1

set_option maxRecDepth 100000 in
theorem C10_witness :
    Reachable abortConfig abortFinalState ∧
    (walker abortConfig.walk).2 = some "permission denied" ∧
    abortFinalState.sent = ["root/a.txt", "root/b.txt"] ∧
    abortFinalState.file = "root/a.txt\nroot/b.txt\n\n" ∧
    abortFinalState.sent = (walker abortConfig.walk).1 ∧
    abortFinalState.received.Perm (worker abortConfig.fs abortFinalState.sent) :=
  ⟨abortFinalState_reachable, by decide, by decide, by decide,
    ((C10_walk_stops_at_first_error abortConfig abortFinalState
      abortFinalState_reachable).2.2.2.1 (by decide) (by decide)).1,
    ((C10_walk_stops_at_first_error abortConfig abortFinalState
      abortFinalState_reachable).2.2.2.1 (by decide) (by decide)).2.1⟩

end Filegorithms
